import Mathlib

/-!
Shallow embedding of the routing-table core of `chain/network/src/routing/routing_table_actor.rs`.

Machine integers (`u64` nonces, timestamps) are modelled as `Nat`; `Instant` is a `Nat`
timestamp and `Duration` a `Nat`, with `Instant::duration_since` modelled as truncated
subtraction.  The key-value store and its batched `StoreUpdate` are modelled explicitly:
reads during a batch see the un-committed store, and `commit` applies the queued
operations in order, exactly as in the source.  `Edge`, `Graph` and the constant
`SAVE_PEERS_MAX_TIME` live in `routing.rs`, which is not part of the provided sources;
they are modelled from the specification (section 3 and section 4.2).
-/

namespace NearRouting

/-- Peer identity: an opaque value with total order and equality (spec section 3). -/
abbrev PeerId := Nat

/-- Modelled from the spec: edge kind, either Added (connection established) or
Removed (connection torn down); the core treats the kind as an independent tag. -/
inductive EdgeType where
  | Added : EdgeType
  | Removed : EdgeType
deriving DecidableEq, Repr

/-- Modelled from the spec: an edge is a tuple (peer0, peer1, nonce, kind, proof);
the proof (two signatures) is opaque to the core and carried verbatim. -/
structure Edge where
  peer0 : PeerId
  peer1 : PeerId
  nonce : Nat
  kind : EdgeType
  signature0 : Nat
  signature1 : Nat
deriving DecidableEq, Repr

/-- The canonical edge key of an edge, as used by `add_verified_edge`. -/
def Edge.get_pair (e : Edge) : PeerId × PeerId := (e.peer0, e.peer1)

/-- The stored kind tag of an edge (`Edge::edge_type` in `routing.rs`). -/
def Edge.edge_type (e : Edge) : EdgeType := e.kind

/-- Whether the edge touches the given peer (`Edge::contains_peer`). -/
def Edge.contains_peer (e : Edge) (p : PeerId) : Bool :=
  decide (e.peer0 = p) || decide (e.peer1 = p)

/-- Modelled from the spec: the hysteresis window constant from `routing.rs`;
its exact magnitude is irrelevant to every claim below. -/
def SAVE_PEERS_MAX_TIME : Nat := 7200

/-- Association-list lookup, the model of `HashMap::get`. -/
def alLookup {K V : Type} [DecidableEq K] (k : K) : List (K × V) → Option V
  | [] => none
  | (k', v) :: rest => if k' = k then some v else alLookup k rest

/-- Association-list insert-or-replace, the model of `HashMap::insert`. -/
def alInsert {K V : Type} [DecidableEq K] (k : K) (v : V) : List (K × V) → List (K × V)
  | [] => [(k, v)]
  | (k', v') :: rest => if k' = k then (k, v) :: rest else (k', v') :: alInsert k v rest

/-- Association-list erase, the model of `HashMap::remove` / a store delete. -/
def alErase {K V : Type} [DecidableEq K] (k : K) (l : List (K × V)) : List (K × V) :=
  l.filter (fun p => decide (¬ p.1 = k))

/-- Modelled from the spec: the Overlay Graph of `routing.rs`, an undirected
adjacency on peer identities holding the set of currently-added edge keys. -/
structure Graph where
  my_peer_id : PeerId
  edges : List (PeerId × PeerId)
deriving DecidableEq, Repr

def Graph.new (p : PeerId) : Graph := { my_peer_id := p, edges := [] }

/-- Modelled from the spec: add an edge key to the graph (parallel edges collapse). -/
def Graph.add_edge (g : Graph) (a b : PeerId) : Graph :=
  if (a, b) ∈ g.edges then g else { g with edges := (a, b) :: g.edges }

/-- Modelled from the spec: remove an edge key from the graph. -/
def Graph.remove_edge (g : Graph) (a b : PeerId) : Graph :=
  { g with edges := g.edges.filter (fun k => decide (¬ k = (a, b))) }

def Graph.total_active_edges (g : Graph) : Nat := g.edges.length

/-- Modelled from the spec: the peers adjacent to `p` in the graph. -/
def Graph.neighbors (g : Graph) (p : PeerId) : List PeerId :=
  (g.edges.filterMap (fun k =>
    if k.1 = p then some k.2 else if k.2 = p then some k.1 else none)).dedup

/-- Modelled from the spec: all peers mentioned by some edge of the graph. -/
def Graph.vertices (g : Graph) : List PeerId :=
  (g.edges.foldr (fun k acc => k.1 :: k.2 :: acc) []).dedup

/-- Modelled from the spec (section 4.2): one BFS layer step; `hops` maps every
already-visited peer other than the local one to its set of first hops. -/
def bfsLoop (g : Graph) : Nat → List PeerId → List PeerId →
    List (PeerId × List PeerId) → List (PeerId × List PeerId)
  | 0, _, _, hops => hops
  | Nat.succ fuel, visited, frontier, hops =>
    let next := ((frontier.foldr (fun u acc => g.neighbors u ++ acc) []).dedup).filter
      (fun v => decide (¬ v ∈ visited))
    if next = [] then hops
    else
      let hops2 := next.foldl (fun h v =>
        let fh := ((frontier.filter (fun u => decide (v ∈ g.neighbors u))).foldr
          (fun u acc => (alLookup u h).getD [] ++ acc) []).dedup
        alInsert v fh h) hops
      bfsLoop g fuel (visited ++ next) next hops2

/-- Modelled from the spec (section 4.2): BFS from the local peer returning, for each
reachable other peer, the set of first-hop neighbours on some shortest path. -/
def Graph.calculate_distance (g : Graph) : List (PeerId × List PeerId) :=
  let my := g.my_peer_id
  let start := (g.neighbors my).filter (fun v => decide (¬ v = my))
  let hops0 := start.foldl (fun h v => alInsert v [v] h) []
  bfsLoop g g.vertices.length (my :: start) start hops0

/-- The persisted columns of the external key-value store (spec section 3):
`ColLastComponentNonce`, `ColComponentEdges`, `ColPeerComponent`. -/
structure Store where
  lastComponentNonce : Option Nat
  componentEdges : List (Nat × List Edge)
  peerComponent : List (PeerId × Nat)
deriving DecidableEq, Repr

def Store.empty : Store :=
  { lastComponentNonce := none, componentEdges := [], peerComponent := [] }

/-- One batched store operation, as queued on a `StoreUpdate`. -/
inductive StoreOp where
  | setLastComponentNonce : Nat → StoreOp
  | setComponentEdges : Nat → List Edge → StoreOp
  | setPeerComponent : PeerId → Nat → StoreOp
  | deletePeerComponent : PeerId → StoreOp
  | deleteComponentEdges : Nat → StoreOp
deriving DecidableEq, Repr

def applyOp (st : Store) : StoreOp → Store
  | StoreOp.setLastComponentNonce n => { st with lastComponentNonce := some n }
  | StoreOp.setComponentEdges c es => { st with componentEdges := alInsert c es st.componentEdges }
  | StoreOp.setPeerComponent p c => { st with peerComponent := alInsert p c st.peerComponent }
  | StoreOp.deletePeerComponent p => { st with peerComponent := alErase p st.peerComponent }
  | StoreOp.deleteComponentEdges c => { st with componentEdges := alErase c st.componentEdges }

/-- `StoreUpdate::commit`: apply the queued operations in order. -/
def commit (st : Store) (u : List StoreOp) : Store := u.foldl applyOp st

/-- The in-memory state of `RoutingTableActor` (timestamps are `Nat` instants). -/
structure RoutingTableActor where
  edges_info : List ((PeerId × PeerId) × Edge)
  raw_graph : Graph
  peer_forwarding : List (PeerId × List PeerId)
  peer_last_time_reachable : List (PeerId × Nat)
  store : Store
  next_available_component_nonce : Nat
  needs_routing_table_recalculation : Bool
deriving DecidableEq, Repr

/-- `RoutingTableActor::new`: the next available component nonce is 0 when the
store has no `LastComponentNonce` entry, and the stored value plus one otherwise. -/
def RoutingTableActor.new (my_peer_id : PeerId) (store : Store) : RoutingTableActor :=
  { edges_info := []
    raw_graph := Graph.new my_peer_id
    peer_forwarding := []
    peer_last_time_reachable := []
    store := store
    next_available_component_nonce :=
      match store.lastComponentNonce with
      | none => 0
      | some nonce => nonce + 1
    needs_routing_table_recalculation := false }

def RoutingTableActor.my_peer_id (s : RoutingTableActor) : PeerId := s.raw_graph.my_peer_id

/-- `is_edge_newer`: whether the given nonce beats the stored edge's nonce (0 if absent). -/
def is_edge_newer (s : RoutingTableActor) (key : PeerId × PeerId) (nonce : Nat) : Bool :=
  decide (((alLookup key s.edges_info).map Edge.nonce).getD 0 < nonce)

/-- `remove_edge`: drop the edge from the Edge Store and, if it was present,
from the Overlay Graph, marking the table dirty. -/
def remove_edge (s : RoutingTableActor) (edge : Edge) : RoutingTableActor :=
  let key := (edge.peer0, edge.peer1)
  match alLookup key s.edges_info with
  | some _ =>
    { s with
      edges_info := alErase key s.edges_info
      raw_graph := s.raw_graph.remove_edge edge.peer0 edge.peer1
      needs_routing_table_recalculation := true }
  | none => s

def remove_edges (s : RoutingTableActor) (edges : List Edge) : RoutingTableActor :=
  edges.foldl remove_edge s

/-- `add_verified_edge`: upsert governed by the per-key nonce; on acceptance the
Overlay Graph is updated according to the edge kind and the table marked dirty. -/
def add_verified_edge (s : RoutingTableActor) (edge : Edge) : RoutingTableActor × Bool :=
  let key := edge.get_pair
  if ¬ is_edge_newer s key edge.nonce then (s, false)
  else
    let g := match edge.edge_type with
      | EdgeType.Added => s.raw_graph.add_edge key.1 key.2
      | EdgeType.Removed => s.raw_graph.remove_edge key.1 key.2
    ({ s with
        needs_routing_table_recalculation := true
        raw_graph := g
        edges_info := alInsert key edge s.edges_info }, true)

/-- `component_nonce_from_peer`: read `ColPeerComponent` at the given peer. -/
def component_nonce_from_peer (s : RoutingTableActor) (p : PeerId) : Option Nat :=
  alLookup p s.store.peerComponent

/-- `get_and_remove_component_edges`: read `ColComponentEdges` at the nonce and
queue its deletion on the update batch. -/
def get_and_remove_component_edges (s : RoutingTableActor) (c : Nat) (u : List StoreOp) :
    Option (List Edge) × List StoreOp :=
  (alLookup c s.store.componentEdges, u ++ [StoreOp.deleteComponentEdges c])

/-- The per-endpoint body of the restore loop of `fetch_edges_for_peer_from_disk`:
skip the local peer and already-tracked peers; a peer whose `PeerComponent` entry
names the restored component is marked reachable with the backdated timestamp and
its entry's deletion queued; other cases are logged and skipped. -/
def restore_endpoint (now : Nat) (cn : Nat) (su : RoutingTableActor × List StoreOp)
    (q : PeerId) : RoutingTableActor × List StoreOp :=
  let s := su.1
  let u := su.2
  if q = s.my_peer_id ∨ (alLookup q s.peer_last_time_reachable).isSome then (s, u)
  else
    match component_nonce_from_peer s q with
    | some cur =>
      if cur = cn then
        ({ s with peer_last_time_reachable :=
            alInsert q (now - SAVE_PEERS_MAX_TIME) s.peer_last_time_reachable },
         u ++ [StoreOp.deletePeerComponent q])
      else (s, u)
    | none => (s, u)

/-- The edge loop of `fetch_edges_for_peer_from_disk`: handle both endpoints of each
component edge, then re-add the edge through the normal verified-edge path. -/
def restore_component_edges (now : Nat) (cn : Nat) :
    RoutingTableActor × List StoreOp → List Edge → RoutingTableActor × List StoreOp
  | su, [] => su
  | su, e :: rest =>
    let su1 := restore_endpoint now cn (restore_endpoint now cn su e.peer0) e.peer1
    restore_component_edges now cn ((add_verified_edge su1.1 e).1, su1.2) rest

/-- `fetch_edges_for_peer_from_disk`: if the peer is local or tracked do nothing;
if it is spilled, restore its owning component; otherwise start tracking it now. -/
def fetch_edges_for_peer_from_disk (now : Nat) (s : RoutingTableActor) (other : PeerId) :
    RoutingTableActor :=
  if other = s.my_peer_id ∨ (alLookup other s.peer_last_time_reachable).isSome then s
  else
    match component_nonce_from_peer s other with
    | some cn =>
      let gu := get_and_remove_component_edges s cn []
      let su1 := match gu.1 with
        | some edges => restore_component_edges now cn (s, gu.2) edges
        | none => (s, gu.2)
      { su1.1 with store := commit su1.1.store su1.2 }
    | none =>
      { s with peer_last_time_reachable := alInsert other now s.peer_last_time_reachable }

/-- `add_verified_edges_to_routing_table`: for each edge in input order, restore
both endpoints from disk if needed, then upsert; return the accepted sublist. -/
def add_verified_edges_to_routing_table (now : Nat) (s : RoutingTableActor) :
    List Edge → RoutingTableActor × List Edge
  | [] => (s, [])
  | e :: rest =>
    let key := e.get_pair
    let s1 := fetch_edges_for_peer_from_disk now s key.1
    let s2 := fetch_edges_for_peer_from_disk now s1 key.2
    let r := add_verified_edge s2 e
    let rec1 := add_verified_edges_to_routing_table now r.1 rest
    (rec1.1, if r.2 then e :: rec1.2 else rec1.2)

/-- `prune_unreachable_edges_and_save_to_db`. -/
def prune_unreachable_edges_and_save_to_db (now : Nat) (s : RoutingTableActor)
    (force_pruning : Bool) (prune_edges_not_reachable_for : Nat) :
    RoutingTableActor × List Edge :=
  let oldest_time := s.peer_last_time_reachable.foldl (fun acc pt => min acc pt.2) now
  let peers_to_remove := (s.peer_last_time_reachable.filter
    (fun pt => decide (prune_edges_not_reachable_for ≤ now - pt.2))).map Prod.fst
  if ¬ force_pruning ∧ now - oldest_time < SAVE_PEERS_MAX_TIME then (s, [])
  else
    let current_component_nonce := s.next_available_component_nonce
    let u0 := [StoreOp.setLastComponentNonce (current_component_nonce + 1)]
    let u1 := u0 ++ peers_to_remove.map (fun p => StoreOp.setPeerComponent p current_component_nonce)
    let tracker := peers_to_remove.foldl (fun t p => alErase p t) s.peer_last_time_reachable
    let edges_to_remove := (s.edges_info.filter
      (fun ke => decide (ke.1.1 ∈ peers_to_remove ∨ ke.1.2 ∈ peers_to_remove))).map Prod.snd
    let u2 := u1 ++ [StoreOp.setComponentEdges current_component_nonce edges_to_remove]
    ({ s with
        next_available_component_nonce := current_component_nonce + 1
        peer_last_time_reachable := tracker
        store := commit s.store u2 }, edges_to_remove)

/-- `Prune` policy enum. -/
inductive Prune where
  | PruneOncePerHour : Prune
  | PruneNow : Prune
  | Disable : Prune
deriving DecidableEq, Repr

/-- `recalculate_routing_table_and_maybe_prune_edges`. -/
def recalculate_routing_table_and_maybe_prune_edges (now : Nat) (s : RoutingTableActor)
    (prune : Prune) (prune_edges_not_reachable_for : Nat) :
    RoutingTableActor × List Edge :=
  let forwarding := s.raw_graph.calculate_distance
  let s1 := { s with
    peer_forwarding := forwarding
    peer_last_time_reachable :=
      forwarding.foldl (fun t pv => alInsert pv.1 now t) s.peer_last_time_reachable }
  let pr := if prune ≠ Prune.Disable then
      prune_unreachable_edges_and_save_to_db now s1 (decide (prune = Prune.PruneNow))
        prune_edges_not_reachable_for
    else (s1, [])
  (remove_edges pr.1 pr.2, pr.2)

/-- The request vocabulary handled by the actor (default build). -/
inductive RoutingTableMessages where
  | AddVerifiedEdges : List Edge → RoutingTableMessages
  | RequestRoutingTable : RoutingTableMessages
  | RoutingTableUpdate : Prune → Nat → RoutingTableMessages
deriving DecidableEq, Repr

inductive RoutingTableMessagesResponse where
  | Empty : RoutingTableMessagesResponse
  | RequestRoutingTableResponse : List Edge → RoutingTableMessagesResponse
  | AddVerifiedEdgesResponse : List Edge → RoutingTableMessagesResponse
  | RoutingTableUpdateResponse : List Edge → List (PeerId × List PeerId) →
      RoutingTableMessagesResponse
deriving DecidableEq, Repr

/-- `Handler<RoutingTableMessages>::handle`. -/
def handle (now : Nat) (s : RoutingTableActor) :
    RoutingTableMessages → RoutingTableActor × RoutingTableMessagesResponse
  | RoutingTableMessages.AddVerifiedEdges edges =>
    let r := add_verified_edges_to_routing_table now s edges
    (r.1, RoutingTableMessagesResponse.AddVerifiedEdgesResponse r.2)
  | RoutingTableMessages.RoutingTableUpdate prune d =>
    let r := if s.needs_routing_table_recalculation then
        recalculate_routing_table_and_maybe_prune_edges now s prune d
      else (s, [])
    ({ r.1 with needs_routing_table_recalculation := false },
     RoutingTableMessagesResponse.RoutingTableUpdateResponse
       (r.2.filter (fun p => p.contains_peer s.my_peer_id)) r.1.peer_forwarding)
  | RoutingTableMessages.RequestRoutingTable =>
    (s, RoutingTableMessagesResponse.RequestRoutingTableResponse (s.edges_info.map Prod.snd))

/-! ## Association-list lemma kit -/

theorem alLookup_alInsert_self {K V : Type} [DecidableEq K] (k : K) (v : V) (l : List (K × V)) :
    alLookup k (alInsert k v l) = some v := by
  induction l with
  | nil => simp [alInsert, alLookup]
  | cons hd tl ih =>
    by_cases h : hd.1 = k
    · simp [alInsert, alLookup, h]
    · cases hd with
      | mk a b => simp_all [alInsert, alLookup, h]

theorem alLookup_alInsert_ne {K V : Type} [DecidableEq K] (k k' : K) (v : V)
    (l : List (K × V)) (h : ¬ k' = k) : alLookup k' (alInsert k v l) = alLookup k' l := by
  have h2 : ¬ k = k' := fun hh => h hh.symm
  induction l with
  | nil => simp [alInsert, alLookup, h2]
  | cons hd tl ih =>
    cases hd with
    | mk a b =>
      by_cases ha : a = k
      · subst ha
        simp [alInsert, alLookup, h2]
      · by_cases hb : a = k'
        · subst hb
          simp [alInsert, alLookup, ha]
        · simp [alInsert, alLookup, ha, hb, ih]

theorem alLookup_alErase_self {K V : Type} [DecidableEq K] (k : K) (l : List (K × V)) :
    alLookup k (alErase k l) = none := by
  induction l with
  | nil => simp [alErase, alLookup]
  | cons hd tl ih =>
    cases hd with
    | mk a b =>
      by_cases ha : a = k
      · simpa [alErase, alLookup, ha] using ih
      · have : alErase k ((a, b) :: tl) = (a, b) :: alErase k tl := by
          simp [alErase, ha]
        rw [this]
        simpa [alLookup, ha] using ih

theorem alLookup_alErase_ne {K V : Type} [DecidableEq K] (k k' : K) (l : List (K × V))
    (h : ¬ k' = k) : alLookup k' (alErase k l) = alLookup k' l := by
  induction l with
  | nil => simp [alErase, alLookup]
  | cons hd tl ih =>
    cases hd with
    | mk a b =>
      by_cases ha : a = k
      · subst ha
        have h2 : ¬ a = k' := fun hh => h hh.symm
        simpa [alErase, alLookup, h2] using ih
      · have : alErase k ((a, b) :: tl) = (a, b) :: alErase k tl := by
          simp [alErase, ha]
        rw [this]
        by_cases hb : a = k'
        · simp [alLookup, hb]
        · simp [alLookup, hb, ih]

theorem alErase_of_lookup_none {K V : Type} [DecidableEq K] (k : K) (l : List (K × V))
    (h : alLookup k l = none) : alErase k l = l := by
  induction l with
  | nil => simp [alErase]
  | cons hd tl ih =>
    cases hd with
    | mk a b =>
      by_cases ha : a = k
      · simp [alLookup, ha] at h
      · simp [alLookup, ha] at h
        have : alErase k ((a, b) :: tl) = (a, b) :: alErase k tl := by
          simp [alErase, ha]
        rw [this, ih h]

/-! ## Claim C1: per-edge upsert semantics and the accepted subset -/

/-- The nonce currently stored for an edge key, taken as 0 when the key is absent
(spec: `current_nonce(key) → u64 (0 when absent)`). -/
def current_nonce (s : RoutingTableActor) (key : PeerId × PeerId) : Nat :=
  ((alLookup key s.edges_info).map Edge.nonce).getD 0

/-- Follows the spec's words: the subset of submitted edges that are accepted,
where an edge is accepted exactly when its nonce strictly exceeds the nonce
currently stored for its edge key at the moment it is processed. -/
def accepted_subset (now : Nat) (s : RoutingTableActor) : List Edge → List Edge
  | [] => []
  | e :: rest =>
    let s1 := fetch_edges_for_peer_from_disk now s e.get_pair.1
    let s2 := fetch_edges_for_peer_from_disk now s1 e.get_pair.2
    let r := add_verified_edge s2 e
    if current_nonce s2 e.get_pair < e.nonce then e :: accepted_subset now r.1 rest
    else accepted_subset now r.1 rest

theorem add_verified_edge_accept_iff (s : RoutingTableActor) (e : Edge) :
    (add_verified_edge s e).2 = true ↔ current_nonce s e.get_pair < e.nonce := by
  unfold add_verified_edge is_edge_newer current_nonce
  by_cases h : ((alLookup e.get_pair s.edges_info).map Edge.nonce).getD 0 < e.nonce <;> simp [h]

theorem add_verified_edge_reject_eq (s : RoutingTableActor) (e : Edge)
    (h : (add_verified_edge s e).2 = false) : (add_verified_edge s e).1 = s := by
  unfold add_verified_edge at h ⊢
  by_cases hc : is_edge_newer s e.get_pair e.nonce = true <;> simp [hc] at h ⊢

theorem add_verified_edge_accept_stores (s : RoutingTableActor) (e : Edge)
    (h : (add_verified_edge s e).2 = true) :
    alLookup e.get_pair (add_verified_edge s e).1.edges_info = some e := by
  unfold add_verified_edge at h ⊢
  by_cases hc : is_edge_newer s e.get_pair e.nonce = true
  · simp [hc]
    exact alLookup_alInsert_self _ _ _
  · simp [hc] at h

theorem batch_output_sublist (now : Nat) (s : RoutingTableActor) (l : List Edge) :
    ((add_verified_edges_to_routing_table now s l).2).Sublist l := by
  induction l generalizing s with
  | nil => simp [add_verified_edges_to_routing_table]
  | cons e rest ih =>
    unfold add_verified_edges_to_routing_table
    by_cases hb : (add_verified_edge (fetch_edges_for_peer_from_disk now
        (fetch_edges_for_peer_from_disk now s e.get_pair.1) e.get_pair.2) e).2 = true
    · simp only [hb, if_true]
      exact List.Sublist.cons₂ e (ih _)
    · simp only [Bool.not_eq_true] at hb
      simp only [hb, Bool.false_eq_true, if_false]
      exact List.Sublist.cons e (ih _)

theorem batch_output_eq_accepted_subset (now : Nat) (s : RoutingTableActor) (l : List Edge) :
    (add_verified_edges_to_routing_table now s l).2 = accepted_subset now s l := by
  induction l generalizing s with
  | nil => rfl
  | cons e rest ih =>
    unfold add_verified_edges_to_routing_table accepted_subset
    by_cases hc : current_nonce (fetch_edges_for_peer_from_disk now
        (fetch_edges_for_peer_from_disk now s e.get_pair.1) e.get_pair.2) e.get_pair < e.nonce
    · have hb := (add_verified_edge_accept_iff _ e).mpr hc
      simp [hb, hc, ih]
    · have hb : (add_verified_edge (fetch_edges_for_peer_from_disk now
          (fetch_edges_for_peer_from_disk now s e.get_pair.1) e.get_pair.2) e).2 = false := by
        by_cases hb' : (add_verified_edge (fetch_edges_for_peer_from_disk now
            (fetch_edges_for_peer_from_disk now s e.get_pair.1) e.get_pair.2) e).2 = true
        · exact absurd ((add_verified_edge_accept_iff _ e).mp hb') hc
        · simpa using hb'
      simp [hb, hc, ih]

/-- C1: an edge submitted through AddVerifiedEdges is accepted iff its nonce strictly
exceeds the nonce currently stored for its edge key (0 when absent); on acceptance the
stored entry is replaced by the edge, on rejection the whole actor state — Edge Store
and Overlay Graph included — is unchanged; and the batch returns exactly the subset of
input edges that were accepted, in input order. -/
theorem C1_upsert_and_accepted_subset :
    (∀ s e, (add_verified_edge s e).2 = true ↔ current_nonce s e.get_pair < e.nonce)
    ∧ (∀ s e, (add_verified_edge s e).2 = false → (add_verified_edge s e).1 = s)
    ∧ (∀ s e, (add_verified_edge s e).2 = true →
        alLookup e.get_pair (add_verified_edge s e).1.edges_info = some e)
    ∧ (∀ now s l, ((add_verified_edges_to_routing_table now s l).2).Sublist l)
    ∧ (∀ now s l, (add_verified_edges_to_routing_table now s l).2 = accepted_subset now s l) :=
  ⟨add_verified_edge_accept_iff, add_verified_edge_reject_eq, add_verified_edge_accept_stores,
   batch_output_sublist, batch_output_eq_accepted_subset⟩

/-! ## Claim C5: hysteresis -/

/-- The minimum last-reachable timestamp across the tracker, initialized at `now`,
exactly as computed by `prune_unreachable_edges_and_save_to_db`. -/
def oldest_tracked_time (s : RoutingTableActor) (now : Nat) : Nat :=
  s.peer_last_time_reachable.foldl (fun acc pt => min acc pt.2) now

/-- C5: with `force` false and the oldest tracker timestamp younger than
`SAVE_PEERS_MAX_TIME`, prune-and-spill returns an empty eviction list and the state
is completely unchanged: no peer leaves the tracker, no component nonce is consumed,
and no store write occurs. -/
theorem C5_hysteresis (now : Nat) (s : RoutingTableActor) (d : Nat)
    (h : now - oldest_tracked_time s now < SAVE_PEERS_MAX_TIME) :
    prune_unreachable_edges_and_save_to_db now s false d = (s, []) := by
  unfold prune_unreachable_edges_and_save_to_db
  simp only [Bool.not_eq_true]
  rw [if_pos]
  constructor
  · simp
  · exact h

/-- Witness for C5 at a concrete input. -/
theorem C5_hysteresis_witness :
    prune_unreachable_edges_and_save_to_db 10
      { RoutingTableActor.new 0 Store.empty with peer_last_time_reachable := [(7, 5)] }
      false 5
    = ({ RoutingTableActor.new 0 Store.empty with peer_last_time_reachable := [(7, 5)] }, []) :=
  C5_hysteresis 10 _ 5 (by decide)

/-! ## Claim C7: RoutingTableUpdate dispatch -/

/-- C7: the RoutingTableUpdate handler invokes the recomputation-and-prune pass exactly
when the dirty flag is set, always clears the flag, and responds with the evicted edges
that contain the local peer together with the current forwarding snapshot; with the flag
clear it returns the unchanged state, an empty eviction list, and the previously
published snapshot. -/
theorem C7_routing_table_update (now : Nat) (s : RoutingTableActor) (p : Prune) (d : Nat) :
    (handle now s (RoutingTableMessages.RoutingTableUpdate p d)).1.needs_routing_table_recalculation
        = false
    ∧ (s.needs_routing_table_recalculation = true →
        handle now s (RoutingTableMessages.RoutingTableUpdate p d) =
          (let r := recalculate_routing_table_and_maybe_prune_edges now s p d
           ({ r.1 with needs_routing_table_recalculation := false },
            RoutingTableMessagesResponse.RoutingTableUpdateResponse
              (r.2.filter (fun e => e.contains_peer s.my_peer_id)) r.1.peer_forwarding)))
    ∧ (s.needs_routing_table_recalculation = false →
        handle now s (RoutingTableMessages.RoutingTableUpdate p d) =
          (s, RoutingTableMessagesResponse.RoutingTableUpdateResponse [] s.peer_forwarding)) := by
  refine ⟨?_, ?_, ?_⟩
  · unfold handle
    by_cases h : s.needs_routing_table_recalculation = true <;> simp [h]
  · intro h
    unfold handle
    simp [h]
  · intro h
    unfold handle
    have hs : { s with needs_routing_table_recalculation := false } = s := by
      cases s
      simp_all
    simp [h, hs]

/-! ## Claim C2: graph consistency invariant -/

theorem Graph.mem_add_edge (g : Graph) (a b : PeerId) (k : PeerId × PeerId) :
    k ∈ (Graph.add_edge g a b).edges ↔ (k = (a, b) ∨ k ∈ g.edges) := by
  unfold Graph.add_edge
  by_cases h : (a, b) ∈ g.edges
  · simp only [h, if_true]
    constructor
    · exact Or.inr
    · rintro (rfl | hk)
      · exact h
      · exact hk
  · simp [h]

theorem Graph.mem_remove_edge (g : Graph) (a b : PeerId) (k : PeerId × PeerId) :
    k ∈ (Graph.remove_edge g a b).edges ↔ (¬ k = (a, b) ∧ k ∈ g.edges) := by
  unfold Graph.remove_edge
  simp [List.mem_filter, and_comm]

theorem Graph.my_add_edge (g : Graph) (a b : PeerId) :
    (Graph.add_edge g a b).my_peer_id = g.my_peer_id := by
  unfold Graph.add_edge
  by_cases h : (a, b) ∈ g.edges <;> simp [h]

theorem Graph.my_remove_edge (g : Graph) (a b : PeerId) :
    (Graph.remove_edge g a b).my_peer_id = g.my_peer_id := rfl

/-- The claimed invariant: the Overlay Graph's edge set is exactly the set of Edge
Store keys whose stored kind is Added. -/
def graphConsistent (s : RoutingTableActor) : Prop :=
  ∀ k, k ∈ s.raw_graph.edges ↔
    ∃ e, alLookup k s.edges_info = some e ∧ e.kind = EdgeType.Added

theorem gc_of_eq (s s' : RoutingTableActor)
    (hg : s'.raw_graph.edges = s.raw_graph.edges) (he : s'.edges_info = s.edges_info)
    (h : graphConsistent s) : graphConsistent s' := by
  intro k
  rw [hg, he]
  exact h k

theorem gc_add_verified_edge (s : RoutingTableActor) (e : Edge)
    (h : graphConsistent s) : graphConsistent (add_verified_edge s e).1 := by
  unfold add_verified_edge
  by_cases hc : is_edge_newer s e.get_pair e.nonce = true
  · simp only [hc, not_true, if_neg, if_false]
    cases hk : e.edge_type with
    | Added =>
      simp only [hk]
      intro k
      by_cases hke : k = e.get_pair
      · subst hke
        have : (e.get_pair.1, e.get_pair.2) = e.get_pair := rfl
        simp only [Graph.mem_add_edge, this, alLookup_alInsert_self]
        unfold Edge.edge_type at hk
        simp [hk]
      · simp only [Graph.mem_add_edge]
        have : ¬ k = (e.get_pair.1, e.get_pair.2) := by simpa using hke
        rw [alLookup_alInsert_ne _ _ _ _ hke]
        simp only [this, false_or]
        exact h k
    | Removed =>
      simp only [hk]
      intro k
      by_cases hke : k = e.get_pair
      · subst hke
        unfold Edge.edge_type at hk
        constructor
        · intro hcontra
          have hm := (Graph.mem_remove_edge _ _ _ _).mp hcontra
          exact absurd rfl hm.1
        · rintro ⟨e', he', hadd⟩
          rw [alLookup_alInsert_self] at he'
          injection he' with he'
          subst he'
          rw [hk] at hadd
          exact absurd hadd (by simp)
      · have hp : ¬ k = (e.get_pair.1, e.get_pair.2) := by simpa using hke
        rw [alLookup_alInsert_ne _ _ _ _ hke]
        constructor
        · intro hc2
          exact (h k).mp ((Graph.mem_remove_edge _ _ _ _).mp hc2).2
        · intro hc2
          exact (Graph.mem_remove_edge _ _ _ _).mpr ⟨hp, (h k).mpr hc2⟩
  · simp only [Bool.not_eq_true] at hc
    simp only [hc]
    simpa using h

theorem gc_remove_edge (s : RoutingTableActor) (e : Edge)
    (h : graphConsistent s) : graphConsistent (remove_edge s e) := by
  unfold remove_edge
  cases hl : alLookup (e.peer0, e.peer1) s.edges_info with
  | none =>
    simp only [hl]
    exact h
  | some e' =>
    simp only [hl]
    intro k
    by_cases hke : k = (e.peer0, e.peer1)
    · subst hke
      rw [alLookup_alErase_self]
      constructor
      · intro hcontra
        have hm := (Graph.mem_remove_edge _ _ _ _).mp hcontra
        exact absurd rfl hm.1
      · rintro ⟨e'', he'', _⟩
        cases he''
    · rw [alLookup_alErase_ne _ _ _ hke]
      constructor
      · intro hc2
        exact (h k).mp ((Graph.mem_remove_edge _ _ _ _).mp hc2).2
      · intro hc2
        exact (Graph.mem_remove_edge _ _ _ _).mpr ⟨hke, (h k).mpr hc2⟩

theorem gc_remove_edges (s : RoutingTableActor) (l : List Edge)
    (h : graphConsistent s) : graphConsistent (remove_edges s l) := by
  induction l generalizing s with
  | nil => exact h
  | cons e rest ih =>
    unfold remove_edges at ih ⊢
    exact ih _ (gc_remove_edge s e h)

theorem restore_endpoint_frame (now cn : Nat) (su : RoutingTableActor × List StoreOp)
    (q : PeerId) :
    (restore_endpoint now cn su q).1.edges_info = su.1.edges_info
    ∧ (restore_endpoint now cn su q).1.raw_graph = su.1.raw_graph
    ∧ (restore_endpoint now cn su q).1.store = su.1.store
    ∧ (restore_endpoint now cn su q).1.next_available_component_nonce
        = su.1.next_available_component_nonce
    ∧ (restore_endpoint now cn su q).1.peer_forwarding = su.1.peer_forwarding
    ∧ (restore_endpoint now cn su q).1.needs_routing_table_recalculation
        = su.1.needs_routing_table_recalculation := by
  unfold restore_endpoint
  by_cases hg : q = su.1.my_peer_id ∨ (alLookup q su.1.peer_last_time_reachable).isSome
  · simp [hg]
  · simp only [hg, if_false]
    cases hc : component_nonce_from_peer su.1 q with
    | none => simp
    | some cur =>
      by_cases he : cur = cn
      · simp [he]
      · simp [he]

theorem gc_restore_loop (now cn : Nat) (es : List Edge)
    (su : RoutingTableActor × List StoreOp) (h : graphConsistent su.1) :
    graphConsistent (restore_component_edges now cn su es).1 := by
  induction es generalizing su with
  | nil => exact h
  | cons e rest ih =>
    unfold restore_component_edges
    apply ih
    have h1 := restore_endpoint_frame now cn su e.peer0
    have h2 := restore_endpoint_frame now cn (restore_endpoint now cn su e.peer0) e.peer1
    have hgc1 : graphConsistent (restore_endpoint now cn su e.peer0).1 :=
      gc_of_eq _ _ (by rw [h1.2.1]) h1.1 h
    have hgc2 : graphConsistent
        (restore_endpoint now cn (restore_endpoint now cn su e.peer0) e.peer1).1 :=
      gc_of_eq _ _ (by rw [h2.2.1]) h2.1 hgc1
    exact gc_add_verified_edge _ e hgc2

theorem gc_fetch (now : Nat) (s : RoutingTableActor) (p : PeerId)
    (h : graphConsistent s) : graphConsistent (fetch_edges_for_peer_from_disk now s p) := by
  unfold fetch_edges_for_peer_from_disk
  by_cases hg : p = s.my_peer_id ∨ (alLookup p s.peer_last_time_reachable).isSome
  · simpa [hg] using h
  · simp only [hg, if_false]
    cases hc : component_nonce_from_peer s p with
    | none =>
      exact gc_of_eq _ _ rfl rfl h
    | some cn =>
      cases hce : (get_and_remove_component_edges s cn []).1 with
      | none =>
        simp only [hce]
        exact gc_of_eq _ _ rfl rfl h
      | some edges =>
        simp only [hce]
        have := gc_restore_loop now cn edges (s, (get_and_remove_component_edges s cn []).2) h
        exact gc_of_eq _ _ rfl rfl this

theorem gc_batch (now : Nat) (l : List Edge) (s : RoutingTableActor)
    (h : graphConsistent s) :
    graphConsistent (add_verified_edges_to_routing_table now s l).1 := by
  induction l generalizing s with
  | nil => exact h
  | cons e rest ih =>
    unfold add_verified_edges_to_routing_table
    exact ih _ (gc_add_verified_edge _ e (gc_fetch now _ _ (gc_fetch now _ _ h)))

theorem gc_prune (now : Nat) (s : RoutingTableActor) (force : Bool) (d : Nat)
    (h : graphConsistent s) :
    graphConsistent (prune_unreachable_edges_and_save_to_db now s force d).1 := by
  unfold prune_unreachable_edges_and_save_to_db
  by_cases hg : (¬ force = true ∧
      now - s.peer_last_time_reachable.foldl (fun acc pt => min acc pt.2) now
        < SAVE_PEERS_MAX_TIME)
  · simpa [hg] using h
  · simp only [hg, if_false]
    exact gc_of_eq _ _ rfl rfl h

theorem gc_recalculate (now : Nat) (s : RoutingTableActor) (p : Prune) (d : Nat)
    (h : graphConsistent s) :
    graphConsistent (recalculate_routing_table_and_maybe_prune_edges now s p d).1 := by
  unfold recalculate_routing_table_and_maybe_prune_edges
  by_cases hp : p ≠ Prune.Disable
  · simp only [if_pos hp]
    apply gc_remove_edges
    exact gc_prune _ _ _ _ (gc_of_eq _ _ rfl rfl h)
  · simp only [if_neg hp]
    apply gc_remove_edges
    exact gc_of_eq _ _ rfl rfl h

/-- C2: after every external operation of the actor completes, the Overlay Graph's
edge set equals exactly the set of Edge Store keys whose stored kind is Added. -/
theorem C2_graph_consistency (now : Nat) (s : RoutingTableActor)
    (msg : RoutingTableMessages) (h : graphConsistent s) :
    graphConsistent (handle now s msg).1 := by
  cases msg with
  | AddVerifiedEdges edges => exact gc_batch now edges s h
  | RequestRoutingTable => exact h
  | RoutingTableUpdate p d =>
    unfold handle
    by_cases hd : s.needs_routing_table_recalculation = true
    · simp only [hd, if_true]
      exact gc_of_eq _ _ rfl rfl (gc_recalculate now s p d h)
    · simp only [Bool.not_eq_true] at hd
      simp only [hd, Bool.false_eq_true, if_false]
      exact gc_of_eq _ _ rfl rfl h

/-- Witness for C2 at a concrete input. -/
theorem C2_graph_consistency_witness :
    graphConsistent (handle 5 (RoutingTableActor.new 0 Store.empty)
      (RoutingTableMessages.AddVerifiedEdges [⟨1, 2, 1, EdgeType.Added, 0, 0⟩])).1 :=
  C2_graph_consistency 5 _ _ (by
    intro k
    constructor
    · intro hk
      exact absurd hk (by simp [RoutingTableActor.new, Graph.new])
    · rintro ⟨e, he, _⟩
      simp [RoutingTableActor.new, alLookup] at he)

/-! ## Claim C4: prune-and-spill victim and eviction characterization -/

theorem mem_of_alLookup {K V : Type} [DecidableEq K] (p : K) (t : V) (l : List (K × V))
    (h : alLookup p l = some t) : (p, t) ∈ l := by
  induction l with
  | nil => cases h
  | cons hd tl ih =>
    cases hd with
    | mk a b =>
      by_cases ha : a = p
      · subst ha
        simp [alLookup] at h
        subst h
        exact List.mem_cons_self _ _
      · simp [alLookup, ha] at h
        exact List.mem_cons_of_mem _ (ih h)

theorem alLookup_of_mem_nodup {K V : Type} [DecidableEq K] (p : K) (t : V) (l : List (K × V))
    (h : (p, t) ∈ l) (hnd : (l.map Prod.fst).Nodup) : alLookup p l = some t := by
  induction l with
  | nil => cases h
  | cons hd tl ih =>
    cases hd with
    | mk a b =>
      simp only [List.map_cons, List.nodup_cons] at hnd
      rcases List.mem_cons.mp h with heq | hmem
      · injection heq with h1 h2
        subst h1
        subst h2
        simp [alLookup]
      · have hap : ¬ a = p := by
          intro hap
          subst hap
          exact hnd.1 (List.mem_map.mpr ⟨(a, t), hmem, rfl⟩)
        simp [alLookup, hap]
        exact ih hmem hnd.2

theorem alLookup_foldl_erase {K V : Type} [DecidableEq K] (p : K) (peers : List K)
    (t0 : List (K × V)) :
    alLookup p (peers.foldl (fun t q => alErase q t) t0)
      = if p ∈ peers then none else alLookup p t0 := by
  induction peers generalizing t0 with
  | nil => simp
  | cons q rest ih =>
    simp only [List.foldl_cons]
    rw [ih]
    by_cases hr : p ∈ rest
    · simp [hr]
    · by_cases hq : p = q
      · subst hq
        simp [hr, alLookup_alErase_self]
      · simp [hr, hq, alLookup_alErase_ne _ _ _ hq]

theorem alLookup_foldl_insert_const {K V : Type} [DecidableEq K] (p : K) (c : V)
    (peers : List K) (m0 : List (K × V)) :
    alLookup p (peers.foldl (fun m q => alInsert q c m) m0)
      = if p ∈ peers then some c else alLookup p m0 := by
  induction peers generalizing m0 with
  | nil => simp
  | cons q rest ih =>
    simp only [List.foldl_cons]
    rw [ih]
    by_cases hr : p ∈ rest
    · simp [hr]
    · by_cases hq : p = q
      · subst hq
        simp [hr, alLookup_alInsert_self]
      · simp [hr, hq, alLookup_alInsert_ne _ _ _ _ hq]

theorem commit_append (st : Store) (u v : List StoreOp) :
    commit st (u ++ v) = commit (commit st u) v := by
  unfold commit
  exact List.foldl_append _ _ _ _

theorem commit_setPeerComponent_map (st : Store) (c : Nat) (peers : List PeerId) :
    commit st (peers.map (fun p => StoreOp.setPeerComponent p c))
      = { st with peerComponent := peers.foldl (fun m q => alInsert q c m) st.peerComponent } := by
  induction peers generalizing st with
  | nil => simp [commit]
  | cons q rest ih =>
    simp only [List.map_cons]
    show commit (applyOp st (StoreOp.setPeerComponent q c)) _ = _
    rw [ih]
    rfl

/-- A peer is a victim of the prune pass at `now` with threshold `u`: it is tracked and
its last-reachable timestamp is at least `u` old. -/
def is_victim (now u : Nat) (s : RoutingTableActor) (p : PeerId) : Bool :=
  match alLookup p s.peer_last_time_reachable with
  | some t => decide (u ≤ now - t)
  | none => false

/-- Well-formedness of the Edge Store: every entry's key is the stored edge's peer pair. -/
def edgeKeysConsistent (s : RoutingTableActor) : Prop :=
  ∀ ke ∈ s.edges_info, ke.1 = (ke.2.peer0, ke.2.peer1)

theorem remove_edge_lookup_none (s : RoutingTableActor) (e : Edge) (k : PeerId × PeerId)
    (h : k = (e.peer0, e.peer1) ∨ alLookup k s.edges_info = none) :
    alLookup k (remove_edge s e).edges_info = none := by
  unfold remove_edge
  cases hl : alLookup (e.peer0, e.peer1) s.edges_info with
  | none =>
    simp only [hl]
    rcases h with rfl | h
    · exact hl
    · exact h
  | some e' =>
    simp only [hl]
    rcases h with rfl | h
    · exact alLookup_alErase_self _ _
    · by_cases hk : k = (e.peer0, e.peer1)
      · subst hk
        exact alLookup_alErase_self _ _
      · rw [alLookup_alErase_ne _ _ _ hk]
        exact h

theorem remove_edges_preserves_none (l : List Edge) (s : RoutingTableActor)
    (k : PeerId × PeerId) (h : alLookup k s.edges_info = none) :
    alLookup k (remove_edges s l).edges_info = none := by
  induction l generalizing s with
  | nil => exact h
  | cons hd tl ih =>
    unfold remove_edges at ih ⊢
    simp only [List.foldl_cons]
    exact ih _ (remove_edge_lookup_none s hd _ (Or.inr h))

theorem remove_edges_lookup_none (l : List Edge) (s : RoutingTableActor) (e : Edge)
    (h : e ∈ l) : alLookup (e.peer0, e.peer1) (remove_edges s l).edges_info = none := by
  induction l generalizing s with
  | nil => cases h
  | cons hd tl ih =>
    unfold remove_edges at ih ⊢
    simp only [List.foldl_cons]
    rcases List.mem_cons.mp h with rfl | hmem
    · exact remove_edges_preserves_none tl _ _ (remove_edge_lookup_none s e _ (Or.inl rfl))
    · exact ih _ hmem

/-- The victim list computed by the prune pass: tracked peers whose timestamp is at
least `u` old at `now`. -/
def victimList (now u : Nat) (s : RoutingTableActor) : List PeerId :=
  (s.peer_last_time_reachable.filter
    (fun pt => decide (u ≤ now - pt.2))).map Prod.fst

/-- The evicted edge list computed by the prune pass: Edge Store entries with at
least one endpoint in the victim list. -/
def evictedList (now u : Nat) (s : RoutingTableActor) : List Edge :=
  (s.edges_info.filter
    (fun ke => decide (ke.1.1 ∈ victimList now u s ∨ ke.1.2 ∈ victimList now u s))).map Prod.snd

theorem mem_victimList_iff (now u : Nat) (s : RoutingTableActor) (p : PeerId)
    (hnd : (s.peer_last_time_reachable.map Prod.fst).Nodup) :
    p ∈ victimList now u s ↔ is_victim now u s p = true := by
  constructor
  · intro h
    rcases List.mem_map.mp h with ⟨⟨q, t⟩, hmem, hq⟩
    simp only at hq
    subst hq
    have hf := List.mem_filter.mp hmem
    unfold is_victim
    rw [alLookup_of_mem_nodup q t _ hf.1 hnd]
    simpa using hf.2
  · intro h
    unfold is_victim at h
    cases hl : alLookup p s.peer_last_time_reachable with
    | none => rw [hl] at h; cases h
    | some t =>
      rw [hl] at h
      have hmem := mem_of_alLookup p t _ hl
      exact List.mem_map.mpr ⟨(p, t), List.mem_filter.mpr ⟨hmem, by simpa using h⟩, rfl⟩

theorem prune_eq_of_guard (now : Nat) (s : RoutingTableActor) (force : Bool) (u : Nat)
    (hng : ¬ (¬ force = true ∧ now - oldest_tracked_time s now < SAVE_PEERS_MAX_TIME)) :
    prune_unreachable_edges_and_save_to_db now s force u =
      ({ s with
          next_available_component_nonce := s.next_available_component_nonce + 1
          peer_last_time_reachable :=
            (victimList now u s).foldl (fun t p => alErase p t) s.peer_last_time_reachable
          store := commit s.store
            ([StoreOp.setLastComponentNonce (s.next_available_component_nonce + 1)]
              ++ (victimList now u s).map
                  (fun p => StoreOp.setPeerComponent p s.next_available_component_nonce)
              ++ [StoreOp.setComponentEdges s.next_available_component_nonce
                    (evictedList now u s)]) },
       evictedList now u s) := by
  unfold oldest_tracked_time at hng
  unfold prune_unreachable_edges_and_save_to_db victimList evictedList
  dsimp only
  rw [if_neg hng]
  exact rfl

theorem prune_store_eq (now : Nat) (s : RoutingTableActor) (force : Bool) (u : Nat)
    (hng : ¬ (¬ force = true ∧ now - oldest_tracked_time s now < SAVE_PEERS_MAX_TIME)) :
    (prune_unreachable_edges_and_save_to_db now s force u).1.store =
      { lastComponentNonce := some (s.next_available_component_nonce + 1)
        componentEdges := alInsert s.next_available_component_nonce (evictedList now u s)
          s.store.componentEdges
        peerComponent := (victimList now u s).foldl
          (fun m q => alInsert q s.next_available_component_nonce m) s.store.peerComponent } := by
  rw [prune_eq_of_guard now s force u hng]
  show commit s.store _ = _
  rw [commit_append, commit_append, commit_setPeerComponent_map]
  rfl

/-- C4 (amended): when prune-and-spill proceeds past the hysteresis check, the victims
are exactly the tracked peers whose last-reachable timestamp is at least
`unreachable_for` old (the source uses `duration_since ≥ unreachable_for`, so a peer
exactly at the boundary is also a victim); every victim leaves the tracker and gains a
`PeerComponent` entry at the freshly allocated nonce; the returned edge list is exactly
the Edge Store entries touching a victim; that list is written under the fresh nonce;
and the caller then removes exactly these edges from the Edge Store and Overlay Graph. -/
theorem C4_prune_amended (now : Nat) (s : RoutingTableActor) (force : Bool) (u : Nat)
    (hguard : force = true ∨ ¬ (now - oldest_tracked_time s now < SAVE_PEERS_MAX_TIME))
    (hnd : (s.peer_last_time_reachable.map Prod.fst).Nodup)
    (hgc : graphConsistent s) :
    (∀ p, alLookup p
        (prune_unreachable_edges_and_save_to_db now s force u).1.peer_last_time_reachable
      = if is_victim now u s p = true then none else alLookup p s.peer_last_time_reachable)
    ∧ (∀ p, alLookup p
        (prune_unreachable_edges_and_save_to_db now s force u).1.store.peerComponent
      = if is_victim now u s p = true then some s.next_available_component_nonce
        else alLookup p s.store.peerComponent)
    ∧ (∀ e, e ∈ (prune_unreachable_edges_and_save_to_db now s force u).2 ↔
        ∃ k, (k, e) ∈ s.edges_info
          ∧ (is_victim now u s k.1 = true ∨ is_victim now u s k.2 = true))
    ∧ alLookup s.next_available_component_nonce
        (prune_unreachable_edges_and_save_to_db now s force u).1.store.componentEdges
      = some (prune_unreachable_edges_and_save_to_db now s force u).2
    ∧ (prune_unreachable_edges_and_save_to_db now s force u).1.store.lastComponentNonce
      = some (s.next_available_component_nonce + 1)
    ∧ (prune_unreachable_edges_and_save_to_db now s force u).1.next_available_component_nonce
      = s.next_available_component_nonce + 1
    ∧ (prune_unreachable_edges_and_save_to_db now s force u).1.edges_info = s.edges_info
    ∧ (prune_unreachable_edges_and_save_to_db now s force u).1.raw_graph = s.raw_graph
    ∧ (∀ e, e ∈ (prune_unreachable_edges_and_save_to_db now s force u).2 →
        alLookup (e.peer0, e.peer1)
          (remove_edges (prune_unreachable_edges_and_save_to_db now s force u).1
            (prune_unreachable_edges_and_save_to_db now s force u).2).edges_info = none
        ∧ ¬ (e.peer0, e.peer1) ∈
          (remove_edges (prune_unreachable_edges_and_save_to_db now s force u).1
            (prune_unreachable_edges_and_save_to_db now s force u).2).raw_graph.edges) := by
  have hng : ¬ (¬ force = true ∧ now - oldest_tracked_time s now < SAVE_PEERS_MAX_TIME) := by
    rcases hguard with h | h
    · simp [h]
    · intro hc
      exact h hc.2
  have hst := prune_store_eq now s force u hng
  refine ⟨?_, ?_, ?_, ?_, ?_, ?_, ?_, ?_, ?_⟩
  · intro p
    rw [prune_eq_of_guard now s force u hng]
    show alLookup p ((victimList now u s).foldl (fun t q => alErase q t)
      s.peer_last_time_reachable) = _
    rw [alLookup_foldl_erase]
    by_cases hv : is_victim now u s p = true
    · rw [if_pos ((mem_victimList_iff now u s p hnd).mpr hv), if_pos hv]
    · rw [if_neg (fun hm => hv ((mem_victimList_iff now u s p hnd).mp hm)), if_neg hv]
  · intro p
    rw [hst]
    show alLookup p ((victimList now u s).foldl
      (fun m q => alInsert q s.next_available_component_nonce m) s.store.peerComponent) = _
    rw [alLookup_foldl_insert_const]
    by_cases hv : is_victim now u s p = true
    · rw [if_pos ((mem_victimList_iff now u s p hnd).mpr hv), if_pos hv]
    · rw [if_neg (fun hm => hv ((mem_victimList_iff now u s p hnd).mp hm)), if_neg hv]
  · intro e
    rw [prune_eq_of_guard now s force u hng]
    show e ∈ evictedList now u s ↔ _
    unfold evictedList
    constructor
    · intro h
      rcases List.mem_map.mp h with ⟨ke, hmem, hke⟩
      have hf := List.mem_filter.mp hmem
      refine ⟨ke.1, ?_, ?_⟩
      · rw [show (ke.1, e) = ke from by rw [← hke]]
        exact hf.1
      · have := of_decide_eq_true hf.2
        rcases this with h1 | h1
        · exact Or.inl ((mem_victimList_iff now u s _ hnd).mp h1)
        · exact Or.inr ((mem_victimList_iff now u s _ hnd).mp h1)
    · rintro ⟨k, hmem, hvk⟩
      refine List.mem_map.mpr ⟨(k, e), List.mem_filter.mpr ⟨hmem, ?_⟩, rfl⟩
      apply decide_eq_true
      rcases hvk with h1 | h1
      · exact Or.inl ((mem_victimList_iff now u s _ hnd).mpr h1)
      · exact Or.inr ((mem_victimList_iff now u s _ hnd).mpr h1)
  · rw [hst, prune_eq_of_guard now s force u hng]
    exact alLookup_alInsert_self _ _ _
  · rw [hst]
  · rw [prune_eq_of_guard now s force u hng]
  · rw [prune_eq_of_guard now s force u hng]
  · rw [prune_eq_of_guard now s force u hng]
  · intro e he
    constructor
    · exact remove_edges_lookup_none _ _ e he
    · intro hmem
      have hgc2 : graphConsistent (remove_edges
          (prune_unreachable_edges_and_save_to_db now s force u).1
          (prune_unreachable_edges_and_save_to_db now s force u).2) := by
        apply gc_remove_edges
        exact gc_of_eq s _ (by rw [prune_eq_of_guard now s force u hng])
          (by rw [prune_eq_of_guard now s force u hng]) hgc
      rcases (hgc2 _).mp hmem with ⟨e', he', _⟩
      rw [remove_edges_lookup_none _ _ e he] at he'
      cases he'

/-- C4 counterexample to the claim as stated: with tracker entry `(7, 5)`, `now = 10`
and `unreachable_for = 5`, the peer's timestamp is NOT strictly older than
`now - unreachable_for` (5 < 10 - 5 fails), yet the forced prune pass spills peer 7
and evicts its edge, because the source compares `duration_since >= unreachable_for`. -/
theorem C4_counterexample :
    ¬ ((5 : Nat) < 10 - 5)
    ∧ alLookup 7 (prune_unreachable_edges_and_save_to_db 10
        { RoutingTableActor.new 0 Store.empty with
            peer_last_time_reachable := [(7, 5)]
            edges_info := [((7, 8), ⟨7, 8, 3, EdgeType.Added, 0, 0⟩)] }
        true 5).1.peer_last_time_reachable = none
    ∧ alLookup 7 (prune_unreachable_edges_and_save_to_db 10
        { RoutingTableActor.new 0 Store.empty with
            peer_last_time_reachable := [(7, 5)]
            edges_info := [((7, 8), ⟨7, 8, 3, EdgeType.Added, 0, 0⟩)] }
        true 5).1.store.peerComponent = some 0
    ∧ (prune_unreachable_edges_and_save_to_db 10
        { RoutingTableActor.new 0 Store.empty with
            peer_last_time_reachable := [(7, 5)]
            edges_info := [((7, 8), ⟨7, 8, 3, EdgeType.Added, 0, 0⟩)] }
        true 5).2 = [⟨7, 8, 3, EdgeType.Added, 0, 0⟩] := by decide

/-- Witness for the amended C4 theorem: one of its conclusions applied at a concrete
input with all hypotheses discharged. -/
theorem C4_prune_amended_witness :
    alLookup 0 (prune_unreachable_edges_and_save_to_db 10
        { RoutingTableActor.new 0 Store.empty with
            peer_last_time_reachable := [(7, 5)]
            edges_info := [((7, 8), ⟨7, 8, 3, EdgeType.Added, 0, 0⟩)]
            raw_graph := { my_peer_id := 0, edges := [(7, 8)] } }
        true 5).1.store.componentEdges
      = some (prune_unreachable_edges_and_save_to_db 10
        { RoutingTableActor.new 0 Store.empty with
            peer_last_time_reachable := [(7, 5)]
            edges_info := [((7, 8), ⟨7, 8, 3, EdgeType.Added, 0, 0⟩)]
            raw_graph := { my_peer_id := 0, edges := [(7, 8)] } }
        true 5).2 :=
  (C4_prune_amended 10
    { RoutingTableActor.new 0 Store.empty with
        peer_last_time_reachable := [(7, 5)]
        edges_info := [((7, 8), ⟨7, 8, 3, EdgeType.Added, 0, 0⟩)]
        raw_graph := { my_peer_id := 0, edges := [(7, 8)] } }
    true 5 (Or.inl rfl) (by decide) (by
      intro k
      constructor
      · intro hk
        have hk2 : k = ((7 : Nat), (8 : Nat)) := by
          cases hk with
          | head => rfl
          | tail _ h2 => cases h2
        subst hk2
        exact ⟨⟨7, 8, 3, EdgeType.Added, 0, 0⟩, by decide, rfl⟩
      · rintro ⟨e, he, _⟩
        by_cases hk : k = ((7 : Nat), (8 : Nat))
        · subst hk
          exact List.mem_singleton.mpr rfl
        · exfalso
          have hnone : alLookup k
              [(((7 : Nat), (8 : Nat)), (⟨7, 8, 3, EdgeType.Added, 0, 0⟩ : Edge))] = none := by
            simp only [alLookup]
            rw [if_neg (fun hh => hk hh.symm)]
          rw [hnone] at he
          cases he)).2.2.2.1

/-! ## Claims C6 and C10: component nonce monotonicity -/

/-- The component nonces recorded anywhere in the persistent store: keys of
`ComponentEdges` and values of `PeerComponent`. -/
def usedNonces (st : Store) : List Nat :=
  st.componentEdges.map Prod.fst ++ st.peerComponent.map Prod.snd

/-- Nonce bookkeeping invariant: every nonce recorded in the store is below the
in-memory counter, and below the persisted `LastComponentNonce` when one exists. -/
def nonceInv (s : RoutingTableActor) : Prop :=
  (∀ n ∈ usedNonces s.store, n < s.next_available_component_nonce)
  ∧ (∀ k, s.store.lastComponentNonce = some k → ∀ n ∈ usedNonces s.store, n < k)

def onlyDeletes (u : List StoreOp) : Prop :=
  ∀ op ∈ u, (∃ q, op = StoreOp.deletePeerComponent q)
    ∨ (∃ c, op = StoreOp.deleteComponentEdges c)

theorem mem_map_alErase {K V W : Type} [DecidableEq K] (f : K × V → W) (k : K)
    (l : List (K × V)) (w : W) (h : w ∈ (alErase k l).map f) : w ∈ l.map f := by
  rcases List.mem_map.mp h with ⟨p, hp, hf⟩
  exact List.mem_map.mpr ⟨p, List.mem_of_mem_filter hp, hf⟩

theorem commit_onlyDeletes (st : Store) (u : List StoreOp) (h : onlyDeletes u) :
    (∀ n ∈ usedNonces (commit st u), n ∈ usedNonces st)
    ∧ (commit st u).lastComponentNonce = st.lastComponentNonce := by
  induction u generalizing st with
  | nil => exact ⟨fun n hn => hn, rfl⟩
  | cons op rest ih =>
    have hop := h op (List.mem_cons_self _ _)
    have hrest : onlyDeletes rest := fun o ho => h o (List.mem_cons_of_mem _ ho)
    have step : (∀ n ∈ usedNonces (applyOp st op), n ∈ usedNonces st)
        ∧ (applyOp st op).lastComponentNonce = st.lastComponentNonce := by
      rcases hop with ⟨q, rfl⟩ | ⟨c, rfl⟩
      · constructor
        · intro n hn
          simp only [usedNonces, applyOp] at hn ⊢
          rcases List.mem_append.mp hn with h1 | h1
          · exact List.mem_append.mpr (Or.inl h1)
          · exact List.mem_append.mpr (Or.inr (mem_map_alErase _ _ _ _ h1))
        · rfl
      · constructor
        · intro n hn
          simp only [usedNonces, applyOp] at hn ⊢
          rcases List.mem_append.mp hn with h1 | h1
          · exact List.mem_append.mpr (Or.inl (mem_map_alErase _ _ _ _ h1))
          · exact List.mem_append.mpr (Or.inr h1)
        · rfl
    have hc : commit st (op :: rest) = commit (applyOp st op) rest := rfl
    rw [hc]
    exact ⟨fun n hn => step.1 n ((ih (applyOp st op) hrest).1 n hn),
      ((ih (applyOp st op) hrest).2).trans step.2⟩

theorem add_verified_edge_frame (s : RoutingTableActor) (e : Edge) :
    (add_verified_edge s e).1.store = s.store
    ∧ (add_verified_edge s e).1.next_available_component_nonce
        = s.next_available_component_nonce
    ∧ (add_verified_edge s e).1.peer_last_time_reachable = s.peer_last_time_reachable
    ∧ (add_verified_edge s e).1.peer_forwarding = s.peer_forwarding
    ∧ (add_verified_edge s e).1.raw_graph.my_peer_id = s.raw_graph.my_peer_id := by
  unfold add_verified_edge
  by_cases h : is_edge_newer s e.get_pair e.nonce = true
  · have hc : ¬ ¬ is_edge_newer s e.get_pair e.nonce = true := by simp [h]
    rw [if_neg hc]
    refine ⟨rfl, rfl, rfl, rfl, ?_⟩
    cases hk : e.edge_type with
    | Added => simp only [hk, Graph.my_add_edge]
    | Removed => simp only [hk, Graph.my_remove_edge]
  · rw [if_pos h]
    exact ⟨rfl, rfl, rfl, rfl, rfl⟩

theorem restore_loop_frame (now cn : Nat) (es : List Edge)
    (su : RoutingTableActor × List StoreOp) :
    (restore_component_edges now cn su es).1.store = su.1.store
    ∧ (restore_component_edges now cn su es).1.next_available_component_nonce
        = su.1.next_available_component_nonce
    ∧ (restore_component_edges now cn su es).1.peer_forwarding = su.1.peer_forwarding
    ∧ (restore_component_edges now cn su es).1.raw_graph.my_peer_id
        = su.1.raw_graph.my_peer_id := by
  induction es generalizing su with
  | nil => exact ⟨rfl, rfl, rfl, rfl⟩
  | cons e rest ih =>
    unfold restore_component_edges
    have h1 := restore_endpoint_frame now cn su e.peer0
    have h2 := restore_endpoint_frame now cn (restore_endpoint now cn su e.peer0) e.peer1
    have h3 := add_verified_edge_frame
      (restore_endpoint now cn (restore_endpoint now cn su e.peer0) e.peer1).1 e
    have ih2 := ih (((add_verified_edge
      (restore_endpoint now cn (restore_endpoint now cn su e.peer0) e.peer1).1 e).1,
      (restore_endpoint now cn (restore_endpoint now cn su e.peer0) e.peer1).2))
    refine ⟨?_, ?_, ?_, ?_⟩
    · rw [ih2.1]
      show (add_verified_edge _ e).1.store = _
      rw [h3.1, h2.2.2.1, h1.2.2.1]
    · rw [ih2.2.1]
      show (add_verified_edge _ e).1.next_available_component_nonce = _
      rw [h3.2.1, h2.2.2.2.1, h1.2.2.2.1]
    · rw [ih2.2.2.1]
      show (add_verified_edge _ e).1.peer_forwarding = _
      rw [h3.2.2.2.1, h2.2.2.2.2.1, h1.2.2.2.2.1]
    · rw [ih2.2.2.2]
      show (add_verified_edge _ e).1.raw_graph.my_peer_id = _
      rw [h3.2.2.2.2]
      show (restore_endpoint now cn _ e.peer1).1.raw_graph.my_peer_id = _
      rw [h2.2.1, h1.2.1]

theorem restore_loop_ops (now cn : Nat) (es : List Edge)
    (su : RoutingTableActor × List StoreOp) (op : StoreOp)
    (h : op ∈ (restore_component_edges now cn su es).2) :
    op ∈ su.2 ∨ ∃ q, op = StoreOp.deletePeerComponent q := by
  induction es generalizing su with
  | nil => exact Or.inl h
  | cons e rest ih =>
    unfold restore_component_edges at h
    rcases ih _ h with h1 | h1
    · -- op came from the two endpoint steps
      have step : ∀ (su2 : RoutingTableActor × List StoreOp) (q : PeerId),
          op ∈ (restore_endpoint now cn su2 q).2 →
          op ∈ su2.2 ∨ ∃ q2, op = StoreOp.deletePeerComponent q2 := by
        intro su2 q hmem
        unfold restore_endpoint at hmem
        by_cases hg : q = su2.1.my_peer_id ∨ (alLookup q su2.1.peer_last_time_reachable).isSome
        · simp only [hg, if_true] at hmem
          exact Or.inl hmem
        · simp only [hg, if_false] at hmem
          cases hc : component_nonce_from_peer su2.1 q with
          | none =>
            rw [hc] at hmem
            exact Or.inl hmem
          | some cur =>
            rw [hc] at hmem
            by_cases he : cur = cn
            · simp only [he, if_true] at hmem
              rcases List.mem_append.mp hmem with hm | hm
              · exact Or.inl hm
              · exact Or.inr ⟨q, (List.mem_singleton.mp hm)⟩
            · simp only [he, if_false] at hmem
              exact Or.inl hmem
      rcases step _ e.peer1 h1 with h2 | h2
      · exact step su e.peer0 h2
      · exact Or.inr h2
    · exact Or.inr h1

theorem fetch_frame (now : Nat) (s : RoutingTableActor) (p : PeerId) :
    (∀ n ∈ usedNonces (fetch_edges_for_peer_from_disk now s p).store, n ∈ usedNonces s.store)
    ∧ (fetch_edges_for_peer_from_disk now s p).store.lastComponentNonce
        = s.store.lastComponentNonce
    ∧ (fetch_edges_for_peer_from_disk now s p).next_available_component_nonce
        = s.next_available_component_nonce
    ∧ (fetch_edges_for_peer_from_disk now s p).raw_graph.my_peer_id
        = s.raw_graph.my_peer_id
    ∧ (fetch_edges_for_peer_from_disk now s p).peer_forwarding = s.peer_forwarding := by
  unfold fetch_edges_for_peer_from_disk
  by_cases hg : p = s.my_peer_id ∨ (alLookup p s.peer_last_time_reachable).isSome
  · rw [if_pos hg]
    exact ⟨fun n hn => hn, rfl, rfl, rfl, rfl⟩
  · rw [if_neg hg]
    cases hc : component_nonce_from_peer s p with
    | none =>
      simp only [hc]
      refine ⟨fun n hn => hn, ?_, ?_, ?_, ?_⟩ <;> trivial
    | some cn =>
      cases hce : (get_and_remove_component_edges s cn []).1 with
      | none =>
        simp only [hce]
        have hod : onlyDeletes (get_and_remove_component_edges s cn []).2 := by
          intro op hop
          unfold get_and_remove_component_edges at hop
          simp only [List.nil_append] at hop
          exact Or.inr ⟨cn, List.mem_singleton.mp hop⟩
        have hcd := commit_onlyDeletes s.store _ hod
        refine ⟨hcd.1, hcd.2, ?_, ?_, ?_⟩ <;> trivial
      | some edges =>
        simp only [hce]
        have hlf := restore_loop_frame now cn edges (s, (get_and_remove_component_edges s cn []).2)
        have hod : onlyDeletes (restore_component_edges now cn
            (s, (get_and_remove_component_edges s cn []).2) edges).2 := by
          intro op hop
          rcases restore_loop_ops now cn edges _ op hop with h1 | h1
          · unfold get_and_remove_component_edges at h1
            simp only [List.nil_append] at h1
            exact Or.inr ⟨cn, List.mem_singleton.mp h1⟩
          · exact Or.inl h1
        have hcd := commit_onlyDeletes (restore_component_edges now cn
            (s, (get_and_remove_component_edges s cn []).2) edges).1.store _ hod
        refine ⟨?_, ?_, ?_, ?_, ?_⟩
        · intro n hn
          have := hcd.1 n hn
          rw [hlf.1] at this
          exact this
        · rw [hcd.2, hlf.1]
        · exact hlf.2.1
        · exact hlf.2.2.2
        · exact hlf.2.2.1

theorem batch_frame (now : Nat) (l : List Edge) (s : RoutingTableActor) :
    (∀ n ∈ usedNonces (add_verified_edges_to_routing_table now s l).1.store,
        n ∈ usedNonces s.store)
    ∧ (add_verified_edges_to_routing_table now s l).1.store.lastComponentNonce
        = s.store.lastComponentNonce
    ∧ (add_verified_edges_to_routing_table now s l).1.next_available_component_nonce
        = s.next_available_component_nonce := by
  induction l generalizing s with
  | nil => exact ⟨fun n hn => hn, rfl, rfl⟩
  | cons e rest ih =>
    unfold add_verified_edges_to_routing_table
    have hf1 := fetch_frame now s e.get_pair.1
    have hf2 := fetch_frame now (fetch_edges_for_peer_from_disk now s e.get_pair.1) e.get_pair.2
    have ha := add_verified_edge_frame (fetch_edges_for_peer_from_disk now
      (fetch_edges_for_peer_from_disk now s e.get_pair.1) e.get_pair.2) e
    have ihr := ih ((add_verified_edge (fetch_edges_for_peer_from_disk now
      (fetch_edges_for_peer_from_disk now s e.get_pair.1) e.get_pair.2) e).1)
    refine ⟨?_, ?_, ?_⟩
    · intro n hn
      have h1 := ihr.1 n hn
      rw [ha.1] at h1
      exact hf1.1 n (hf2.1 n h1)
    · rw [ihr.2.1, ha.1, hf2.2.1, hf1.2.1]
    · rw [ihr.2.2, ha.2.1, hf2.2.2.1, hf1.2.2.1]

theorem remove_edges_frame (l : List Edge) (s : RoutingTableActor) :
    (remove_edges s l).store = s.store
    ∧ (remove_edges s l).next_available_component_nonce = s.next_available_component_nonce
    ∧ (remove_edges s l).peer_forwarding = s.peer_forwarding := by
  induction l generalizing s with
  | nil => exact ⟨rfl, rfl, rfl⟩
  | cons e rest ih =>
    unfold remove_edges at ih ⊢
    simp only [List.foldl_cons]
    have hstep : (remove_edge s e).store = s.store
        ∧ (remove_edge s e).next_available_component_nonce = s.next_available_component_nonce
        ∧ (remove_edge s e).peer_forwarding = s.peer_forwarding := by
      unfold remove_edge
      dsimp only
      cases h : alLookup (e.peer0, e.peer1) s.edges_info
      · simp only [h]
        refine ⟨?_, ?_, ?_⟩ <;> trivial
      · simp only [h]
        refine ⟨?_, ?_, ?_⟩ <;> trivial
    have := ih (remove_edge s e)
    exact ⟨this.1.trans hstep.1, this.2.1.trans hstep.2.1, this.2.2.trans hstep.2.2⟩

theorem prune_next_mono (now : Nat) (s : RoutingTableActor) (force : Bool) (u : Nat) :
    s.next_available_component_nonce
      ≤ (prune_unreachable_edges_and_save_to_db now s force u).1.next_available_component_nonce := by
  unfold prune_unreachable_edges_and_save_to_db
  by_cases hg : (¬ force = true ∧
      now - s.peer_last_time_reachable.foldl (fun acc pt => min acc pt.2) now
        < SAVE_PEERS_MAX_TIME)
  · simp [hg]
  · simp only [hg, if_false]
    exact Nat.le_succ _

theorem handle_next_mono (now : Nat) (s : RoutingTableActor) (msg : RoutingTableMessages) :
    s.next_available_component_nonce
      ≤ (handle now s msg).1.next_available_component_nonce := by
  cases msg with
  | AddVerifiedEdges edges =>
    exact Nat.le_of_eq (batch_frame now edges s).2.2.symm
  | RequestRoutingTable => exact Nat.le_refl _
  | RoutingTableUpdate p d =>
    unfold handle
    by_cases hd : s.needs_routing_table_recalculation = true
    · simp only [hd, if_true]
      show s.next_available_component_nonce
        ≤ (recalculate_routing_table_and_maybe_prune_edges now s p d).1.next_available_component_nonce
      unfold recalculate_routing_table_and_maybe_prune_edges
      by_cases hp : p ≠ Prune.Disable
      · simp only [if_pos hp]
        rw [(remove_edges_frame _ _).2.1]
        exact prune_next_mono now
          { s with
              peer_forwarding := s.raw_graph.calculate_distance
              peer_last_time_reachable := List.foldl (fun t pv => alInsert pv.1 now t)
                s.peer_last_time_reachable s.raw_graph.calculate_distance }
          (decide (p = Prune.PruneNow)) d
      · simp only [if_neg hp]
        rw [(remove_edges_frame _ _).2.1]
    · simp only [Bool.not_eq_true] at hd
      simp [hd]

theorem mem_map_fst_alInsert {K V : Type} [DecidableEq K] (k : K) (v : V)
    (l : List (K × V)) (n : K) (h : n ∈ (alInsert k v l).map Prod.fst) :
    n = k ∨ n ∈ l.map Prod.fst := by
  induction l with
  | nil =>
    simp [alInsert] at h
    exact Or.inl h
  | cons hd tl ih =>
    cases hd with
    | mk a b =>
      by_cases ha : a = k
      · subst ha
        have he : alInsert a v ((a, b) :: tl) = (a, v) :: tl := by simp [alInsert]
        rw [he] at h
        simp only [List.map_cons] at h ⊢
        rcases List.mem_cons.mp h with h1 | h1
        · exact Or.inl h1
        · exact Or.inr (List.mem_cons_of_mem _ h1)
      · have he : alInsert k v ((a, b) :: tl) = (a, b) :: alInsert k v tl := by
          simp [alInsert, ha]
        rw [he] at h
        simp only [List.map_cons] at h ⊢
        rcases List.mem_cons.mp h with h1 | h1
        · exact Or.inr (List.mem_cons.mpr (Or.inl h1))
        · rcases ih h1 with h2 | h2
          · exact Or.inl h2
          · exact Or.inr (List.mem_cons_of_mem _ h2)

theorem mem_map_snd_alInsert {K V : Type} [DecidableEq K] (k : K) (v : V)
    (l : List (K × V)) (w : V) (h : w ∈ (alInsert k v l).map Prod.snd) :
    w = v ∨ w ∈ l.map Prod.snd := by
  induction l with
  | nil =>
    simp [alInsert] at h
    exact Or.inl h
  | cons hd tl ih =>
    cases hd with
    | mk a b =>
      by_cases ha : a = k
      · subst ha
        have he : alInsert a v ((a, b) :: tl) = (a, v) :: tl := by simp [alInsert]
        rw [he] at h
        simp only [List.map_cons] at h ⊢
        rcases List.mem_cons.mp h with h1 | h1
        · exact Or.inl h1
        · exact Or.inr (List.mem_cons_of_mem _ h1)
      · have he : alInsert k v ((a, b) :: tl) = (a, b) :: alInsert k v tl := by
          simp [alInsert, ha]
        rw [he] at h
        simp only [List.map_cons] at h ⊢
        rcases List.mem_cons.mp h with h1 | h1
        · exact Or.inr (List.mem_cons.mpr (Or.inl h1))
        · rcases ih h1 with h2 | h2
          · exact Or.inl h2
          · exact Or.inr (List.mem_cons_of_mem _ h2)

theorem mem_map_snd_foldl_insert_const {K V : Type} [DecidableEq K] (c : V)
    (peers : List K) (m0 : List (K × V)) (n : V)
    (h : n ∈ (peers.foldl (fun m q => alInsert q c m) m0).map Prod.snd) :
    n = c ∨ n ∈ m0.map Prod.snd := by
  induction peers generalizing m0 with
  | nil => exact Or.inr h
  | cons q rest ih =>
    simp only [List.foldl_cons] at h
    rcases ih _ h with h2 | h2
    · exact Or.inl h2
    · exact mem_map_snd_alInsert q c m0 n h2

theorem nonceInv_of_eq (s s' : RoutingTableActor) (hst : s'.store = s.store)
    (hn : s'.next_available_component_nonce = s.next_available_component_nonce)
    (h : nonceInv s) : nonceInv s' := by
  constructor
  · intro n hmem
    rw [hst] at hmem
    rw [hn]
    exact h.1 n hmem
  · intro k hk n hmem
    rw [hst] at hk hmem
    exact h.2 k hk n hmem

theorem prune_nonceInv (now : Nat) (s : RoutingTableActor) (force : Bool) (u : Nat)
    (h : nonceInv s) :
    nonceInv (prune_unreachable_edges_and_save_to_db now s force u).1 := by
  by_cases hg : (¬ force = true ∧ now - oldest_tracked_time s now < SAVE_PEERS_MAX_TIME)
  · have : prune_unreachable_edges_and_save_to_db now s force u = (s, []) := by
      unfold oldest_tracked_time at hg
      unfold prune_unreachable_edges_and_save_to_db
      dsimp only
      rw [if_pos hg]
    rw [this]
    exact h
  · have hst := prune_store_eq now s force u hg
    have heq := prune_eq_of_guard now s force u hg
    have hnext : (prune_unreachable_edges_and_save_to_db now s force u).1.next_available_component_nonce
        = s.next_available_component_nonce + 1 := by rw [heq]
    have hmem : ∀ n ∈ usedNonces (prune_unreachable_edges_and_save_to_db now s force u).1.store,
        n = s.next_available_component_nonce ∨ n ∈ usedNonces s.store := by
      intro n hmem
      rw [hst] at hmem
      unfold usedNonces at hmem ⊢
      rcases List.mem_append.mp hmem with h1 | h1
      · rcases mem_map_fst_alInsert _ _ _ _ h1 with h2 | h2
        · exact Or.inl h2
        · exact Or.inr (List.mem_append.mpr (Or.inl h2))
      · rcases mem_map_snd_foldl_insert_const _ _ _ _ h1 with h2 | h2
        · exact Or.inl h2
        · exact Or.inr (List.mem_append.mpr (Or.inr h2))
    constructor
    · intro n hn
      rw [hnext]
      rcases hmem n hn with h2 | h2
      · rw [h2]
        exact Nat.lt_succ_self _
      · exact Nat.lt_succ_of_lt (h.1 n h2)
    · intro k hk n hn
      rw [hst] at hk
      injection hk with hk
      subst hk
      rcases hmem n hn with h2 | h2
      · rw [h2]
        exact Nat.lt_succ_self _
      · exact Nat.lt_succ_of_lt (h.1 n h2)

theorem handle_nonceInv (now : Nat) (s : RoutingTableActor) (msg : RoutingTableMessages)
    (h : nonceInv s) : nonceInv (handle now s msg).1 := by
  cases msg with
  | AddVerifiedEdges edges =>
    have hf := batch_frame now edges s
    show nonceInv (add_verified_edges_to_routing_table now s edges).1
    constructor
    · intro n hn
      rw [hf.2.2]
      exact h.1 n (hf.1 n hn)
    · intro k hk n hn
      rw [hf.2.1] at hk
      exact h.2 k hk n (hf.1 n hn)
  | RequestRoutingTable => exact h
  | RoutingTableUpdate p d =>
    unfold handle
    by_cases hd : s.needs_routing_table_recalculation = true
    · simp only [hd, if_true]
      apply nonceInv_of_eq _ (recalculate_routing_table_and_maybe_prune_edges now s p d).1 rfl rfl
      unfold recalculate_routing_table_and_maybe_prune_edges
      by_cases hp : p ≠ Prune.Disable
      · simp only [if_pos hp]
        apply nonceInv_of_eq _ _ (remove_edges_frame _ _).1 (remove_edges_frame _ _).2.1
        exact prune_nonceInv now _ _ d (nonceInv_of_eq _ s rfl rfl h)
      · simp only [if_neg hp]
        apply nonceInv_of_eq _ _ (remove_edges_frame _ _).1 (remove_edges_frame _ _).2.1
        exact nonceInv_of_eq _ s rfl rfl h
    · simp only [Bool.not_eq_true] at hd
      simp only [hd, Bool.false_eq_true, if_false]
      exact nonceInv_of_eq _ s rfl rfl h

/-- C6: each spill pass that proceeds allocates exactly the current counter value
(writing the evicted edges under it), sets the in-memory counter and the persisted
`LastComponentNonce` to that value plus one in the same batch; the counter never
decreases across any handled operation, so allocated component nonces are strictly
increasing over any execution; and the invariant that the persisted
`LastComponentNonce` exceeds every nonce recorded in the store is preserved by every
handled operation. -/
theorem C6_component_nonce_monotonicity :
    (∀ now s force u,
      (force = true ∨ ¬ (now - oldest_tracked_time s now < SAVE_PEERS_MAX_TIME)) →
      (prune_unreachable_edges_and_save_to_db now s force u).1.next_available_component_nonce
          = s.next_available_component_nonce + 1
      ∧ (prune_unreachable_edges_and_save_to_db now s force u).1.store.lastComponentNonce
          = some (s.next_available_component_nonce + 1)
      ∧ alLookup s.next_available_component_nonce
          (prune_unreachable_edges_and_save_to_db now s force u).1.store.componentEdges
          = some (prune_unreachable_edges_and_save_to_db now s force u).2)
    ∧ (∀ now s msg, s.next_available_component_nonce
        ≤ (handle now s msg).1.next_available_component_nonce)
    ∧ (∀ now s msg, nonceInv s → nonceInv (handle now s msg).1) := by
  refine ⟨?_, handle_next_mono, handle_nonceInv⟩
  intro now s force u hguard
  have hng : ¬ (¬ force = true ∧ now - oldest_tracked_time s now < SAVE_PEERS_MAX_TIME) := by
    rcases hguard with h | h
    · simp [h]
    · intro hc
      exact h hc.2
  have hst := prune_store_eq now s force u hng
  refine ⟨?_, ?_, ?_⟩
  · rw [prune_eq_of_guard now s force u hng]
  · rw [hst]
  · rw [hst, prune_eq_of_guard now s force u hng]
    exact alLookup_alInsert_self _ _ _

/-- Witness for C6: the invariant-preservation conjunct applied at a concrete input. -/
theorem C6_component_nonce_monotonicity_witness :
    nonceInv (handle 3 (RoutingTableActor.new 0 Store.empty)
      RoutingTableMessages.RequestRoutingTable).1 :=
  C6_component_nonce_monotonicity.2.2 3 _ _
    ⟨fun n hn => absurd hn (by simp [usedNonces, Store.empty, RoutingTableActor.new]),
     fun k hk => by simp [Store.empty, RoutingTableActor.new] at hk⟩

/-- C10: at construction the counter is 0 without a persisted `LastComponentNonce`
and the persisted value plus one otherwise; the counter never decreases across
handled operations and a proceeding spill pass allocates exactly the pre-increment
counter, so every component nonce allocated after a restart equals at least the
persisted value plus one — strictly above every nonce used before the restart —
while the persisted value itself is skipped and never allocated. -/
theorem C10_restart_nonce :
    (∀ my st, st.lastComponentNonce = none →
      (RoutingTableActor.new my st).next_available_component_nonce = 0)
    ∧ (∀ my st k, st.lastComponentNonce = some k →
      (RoutingTableActor.new my st).next_available_component_nonce = k + 1
      ∧ k < (RoutingTableActor.new my st).next_available_component_nonce
      ∧ (∀ n ∈ usedNonces st, n < k →
          n < (RoutingTableActor.new my st).next_available_component_nonce))
    ∧ (∀ now s msg, s.next_available_component_nonce
        ≤ (handle now s msg).1.next_available_component_nonce)
    ∧ (∀ now t force u,
      (force = true ∨ ¬ (now - oldest_tracked_time t now < SAVE_PEERS_MAX_TIME)) →
      (prune_unreachable_edges_and_save_to_db now t force u).1.next_available_component_nonce
        = t.next_available_component_nonce + 1) := by
  refine ⟨?_, ?_, handle_next_mono, ?_⟩
  · intro my st hl
    unfold RoutingTableActor.new
    rw [hl]
  · intro my st k hl
    have h1 : (RoutingTableActor.new my st).next_available_component_nonce = k + 1 := by
      unfold RoutingTableActor.new
      rw [hl]
    refine ⟨h1, ?_, ?_⟩
    · rw [h1]
      exact Nat.lt_succ_self _
    · intro n _ hn
      rw [h1]
      exact Nat.lt_succ_of_lt hn
  · intro now t force u hguard
    have hng : ¬ (¬ force = true ∧ now - oldest_tracked_time t now < SAVE_PEERS_MAX_TIME) := by
      rcases hguard with h | h
      · simp [h]
      · intro hc
        exact h hc.2
    rw [prune_eq_of_guard now t force u hng]

/-- Witness for C10: the restart conjunct applied at a concrete persisted nonce. -/
theorem C10_restart_nonce_witness :
    (RoutingTableActor.new 3
      { lastComponentNonce := some 5, componentEdges := [], peerComponent := [] }
      ).next_available_component_nonce = 5 + 1 :=
  (C10_restart_nonce.2.1 3
    { lastComponentNonce := some 5, componentEdges := [], peerComponent := [] } 5 rfl).1

/-! ## Claim C3: restore-on-touch -/

theorem restore_endpoint_tracker_some (now cn : Nat) (su : RoutingTableActor × List StoreOp)
    (q x : PeerId) (v : Nat) (h : alLookup x su.1.peer_last_time_reachable = some v) :
    alLookup x (restore_endpoint now cn su q).1.peer_last_time_reachable = some v := by
  unfold restore_endpoint
  by_cases hg : q = su.1.my_peer_id ∨ (alLookup q su.1.peer_last_time_reachable).isSome
  · rw [if_pos hg]
    exact h
  · rw [if_neg hg]
    cases hc : component_nonce_from_peer su.1 q with
    | none => exact h
    | some cur =>
      dsimp only
      by_cases he : cur = cn
      · rw [if_pos he]
        have hxq : ¬ x = q := by
          intro hxq
          subst hxq
          rw [h] at hg
          exact hg (Or.inr rfl)
        show alLookup x (alInsert q (now - SAVE_PEERS_MAX_TIME)
          su.1.peer_last_time_reachable) = some v
        rw [alLookup_alInsert_ne _ _ _ _ hxq]
        exact h
      · rw [if_neg he]
        exact h

theorem restore_endpoint_tracker_ne (now cn : Nat) (su : RoutingTableActor × List StoreOp)
    (q x : PeerId) (hx : ¬ x = q) :
    alLookup x (restore_endpoint now cn su q).1.peer_last_time_reachable
      = alLookup x su.1.peer_last_time_reachable := by
  unfold restore_endpoint
  by_cases hg : q = su.1.my_peer_id ∨ (alLookup q su.1.peer_last_time_reachable).isSome
  · rw [if_pos hg]
  · rw [if_neg hg]
    cases hc : component_nonce_from_peer su.1 q with
    | none => rfl
    | some cur =>
      dsimp only
      by_cases he : cur = cn
      · rw [if_pos he]
        exact alLookup_alInsert_ne _ _ _ _ hx
      · rw [if_neg he]

theorem restore_endpoint_ops_mono (now cn : Nat) (su : RoutingTableActor × List StoreOp)
    (q : PeerId) (op : StoreOp) (h : op ∈ su.2) : op ∈ (restore_endpoint now cn su q).2 := by
  unfold restore_endpoint
  by_cases hg : q = su.1.my_peer_id ∨ (alLookup q su.1.peer_last_time_reachable).isSome
  · rw [if_pos hg]
    exact h
  · rw [if_neg hg]
    cases hc : component_nonce_from_peer su.1 q with
    | none => exact h
    | some cur =>
      dsimp only
      by_cases he : cur = cn
      · rw [if_pos he]
        exact List.mem_append.mpr (Or.inl h)
      · rw [if_neg he]
        exact h

theorem restore_endpoint_tracker_cases (now cn : Nat) (su : RoutingTableActor × List StoreOp)
    (q x : PeerId) (v : Nat)
    (h : alLookup x (restore_endpoint now cn su q).1.peer_last_time_reachable = some v) :
    alLookup x su.1.peer_last_time_reachable = some v
    ∨ (v = now - SAVE_PEERS_MAX_TIME
        ∧ StoreOp.deletePeerComponent x ∈ (restore_endpoint now cn su q).2) := by
  by_cases hx : x = q
  · subst hx
    unfold restore_endpoint at h ⊢
    by_cases hg : x = su.1.my_peer_id ∨ (alLookup x su.1.peer_last_time_reachable).isSome
    · rw [if_pos hg] at h ⊢
      exact Or.inl h
    · rw [if_neg hg] at h ⊢
      cases hc : component_nonce_from_peer su.1 x with
      | none =>
        rw [hc] at h
        exact Or.inl h
      | some cur =>
        rw [hc] at h
        dsimp only at h ⊢
        by_cases he : cur = cn
        · rw [if_pos he] at h ⊢
          have := alLookup_alInsert_self x (now - SAVE_PEERS_MAX_TIME)
            su.1.peer_last_time_reachable
          rw [this] at h
          injection h with h
          refine Or.inr ⟨h.symm, ?_⟩
          exact List.mem_append.mpr (Or.inr (List.mem_singleton.mpr rfl))
        · rw [if_neg he] at h
          exact Or.inl h
  · rw [restore_endpoint_tracker_ne now cn su q x hx] at h
    exact Or.inl h

theorem restore_loop_tracker_some (now cn : Nat) (es : List Edge)
    (su : RoutingTableActor × List StoreOp) (x : PeerId) (v : Nat)
    (h : alLookup x su.1.peer_last_time_reachable = some v) :
    alLookup x (restore_component_edges now cn su es).1.peer_last_time_reachable = some v := by
  induction es generalizing su with
  | nil => exact h
  | cons e rest ih =>
    unfold restore_component_edges
    apply ih
    show alLookup x (add_verified_edge _ e).1.peer_last_time_reachable = some v
    rw [(add_verified_edge_frame _ e).2.2.1]
    exact restore_endpoint_tracker_some now cn _ e.peer1 x v
      (restore_endpoint_tracker_some now cn su e.peer0 x v h)

theorem restore_loop_ops_mono (now cn : Nat) (es : List Edge)
    (su : RoutingTableActor × List StoreOp) (op : StoreOp) (h : op ∈ su.2) :
    op ∈ (restore_component_edges now cn su es).2 := by
  induction es generalizing su with
  | nil => exact h
  | cons e rest ih =>
    unfold restore_component_edges
    apply ih
    show op ∈ (restore_endpoint now cn (restore_endpoint now cn su e.peer0) e.peer1).2
    exact restore_endpoint_ops_mono now cn _ e.peer1 op
      (restore_endpoint_ops_mono now cn su e.peer0 op h)

theorem restore_loop_tracker_cases (now cn : Nat) (es : List Edge)
    (su : RoutingTableActor × List StoreOp) (x : PeerId) (v : Nat)
    (h : alLookup x (restore_component_edges now cn su es).1.peer_last_time_reachable = some v) :
    alLookup x su.1.peer_last_time_reachable = some v
    ∨ (v = now - SAVE_PEERS_MAX_TIME
        ∧ StoreOp.deletePeerComponent x ∈ (restore_component_edges now cn su es).2) := by
  induction es generalizing su with
  | nil => exact Or.inl h
  | cons e rest ih =>
    unfold restore_component_edges at h ⊢
    rcases ih _ h with h1 | h1
    · have h2 : alLookup x (restore_endpoint now cn
          (restore_endpoint now cn su e.peer0) e.peer1).1.peer_last_time_reachable = some v := by
        have := (add_verified_edge_frame (restore_endpoint now cn
          (restore_endpoint now cn su e.peer0) e.peer1).1 e).2.2.1
        rw [← this]
        exact h1
      rcases restore_endpoint_tracker_cases now cn _ e.peer1 x v h2 with h3 | h3
      · rcases restore_endpoint_tracker_cases now cn su e.peer0 x v h3 with h4 | h4
        · exact Or.inl h4
        · refine Or.inr ⟨h4.1, ?_⟩
          apply restore_loop_ops_mono
          show StoreOp.deletePeerComponent x ∈ (restore_endpoint now cn
            (restore_endpoint now cn su e.peer0) e.peer1).2
          exact restore_endpoint_ops_mono now cn _ e.peer1 _ h4.2
      · refine Or.inr ⟨h3.1, ?_⟩
        apply restore_loop_ops_mono
        exact h3.2
    · exact Or.inr h1

theorem commit_deletes_pc_preserve_none (st : Store) (u : List StoreOp) (q : PeerId)
    (hod : onlyDeletes u) (h : alLookup q st.peerComponent = none) :
    alLookup q (commit st u).peerComponent = none := by
  induction u generalizing st with
  | nil => exact h
  | cons op rest ih =>
    have hrest : onlyDeletes rest := fun o ho => hod o (List.mem_cons_of_mem _ ho)
    have hstep : alLookup q (applyOp st op).peerComponent = none := by
      rcases hod op (List.mem_cons_self _ _) with ⟨q', rfl⟩ | ⟨c, rfl⟩
      · show alLookup q (alErase q' st.peerComponent) = none
        by_cases hq : q = q'
        · subst hq
          exact alLookup_alErase_self _ _
        · rw [alLookup_alErase_ne _ _ _ hq]
          exact h
      · exact h
    exact ih (applyOp st op) hrest hstep

theorem commit_deletes_pc_none (st : Store) (u : List StoreOp) (q : PeerId)
    (hod : onlyDeletes u) (hmem : StoreOp.deletePeerComponent q ∈ u) :
    alLookup q (commit st u).peerComponent = none := by
  induction u generalizing st with
  | nil => cases hmem
  | cons op rest ih =>
    have hrest : onlyDeletes rest := fun o ho => hod o (List.mem_cons_of_mem _ ho)
    rcases List.mem_cons.mp hmem with rfl | hmem2
    · apply commit_deletes_pc_preserve_none _ _ _ hrest
      show alLookup q (alErase q st.peerComponent) = none
      exact alLookup_alErase_self _ _
    · exact ih _ hrest hmem2

theorem commit_deletes_pc_not_mem (st : Store) (u : List StoreOp) (q : PeerId)
    (hod : onlyDeletes u) (hnmem : ¬ StoreOp.deletePeerComponent q ∈ u) :
    alLookup q (commit st u).peerComponent = alLookup q st.peerComponent := by
  induction u generalizing st with
  | nil => rfl
  | cons op rest ih =>
    have hrest : onlyDeletes rest := fun o ho => hod o (List.mem_cons_of_mem _ ho)
    have hnrest : ¬ StoreOp.deletePeerComponent q ∈ rest :=
      fun hm => hnmem (List.mem_cons_of_mem _ hm)
    have hstep : alLookup q (applyOp st op).peerComponent = alLookup q st.peerComponent := by
      rcases hod op (List.mem_cons_self _ _) with ⟨q', rfl⟩ | ⟨c, rfl⟩
      · have hq : ¬ q = q' := by
          intro hq
          subst hq
          exact hnmem (List.mem_cons_self _ _)
        exact alLookup_alErase_ne _ _ _ hq
      · rfl
    rw [show commit st (op :: rest) = commit (applyOp st op) rest from rfl,
      ih _ hrest hnrest, hstep]

theorem commit_deletes_ce_preserve_none (st : Store) (u : List StoreOp) (c : Nat)
    (hod : onlyDeletes u) (h : alLookup c st.componentEdges = none) :
    alLookup c (commit st u).componentEdges = none := by
  induction u generalizing st with
  | nil => exact h
  | cons op rest ih =>
    have hrest : onlyDeletes rest := fun o ho => hod o (List.mem_cons_of_mem _ ho)
    have hstep : alLookup c (applyOp st op).componentEdges = none := by
      rcases hod op (List.mem_cons_self _ _) with ⟨q', rfl⟩ | ⟨c', rfl⟩
      · exact h
      · show alLookup c (alErase c' st.componentEdges) = none
        by_cases hc : c = c'
        · subst hc
          exact alLookup_alErase_self _ _
        · rw [alLookup_alErase_ne _ _ _ hc]
          exact h
    exact ih (applyOp st op) hrest hstep

theorem commit_deletes_ce_none (st : Store) (u : List StoreOp) (c : Nat)
    (hod : onlyDeletes u) (hmem : StoreOp.deleteComponentEdges c ∈ u) :
    alLookup c (commit st u).componentEdges = none := by
  induction u generalizing st with
  | nil => cases hmem
  | cons op rest ih =>
    have hrest : onlyDeletes rest := fun o ho => hod o (List.mem_cons_of_mem _ ho)
    rcases List.mem_cons.mp hmem with rfl | hmem2
    · apply commit_deletes_ce_preserve_none _ _ _ hrest
      show alLookup c (alErase c st.componentEdges) = none
      exact alLookup_alErase_self _ _
    · exact ih _ hrest hmem2

theorem restore_endpoint_marks (now cn : Nat) (su : RoutingTableActor × List StoreOp)
    (q : PeerId) (hmy : ¬ q = su.1.raw_graph.my_peer_id)
    (hpc : alLookup q su.1.store.peerComponent = some cn)
    (htr : alLookup q su.1.peer_last_time_reachable = none
        ∨ (alLookup q su.1.peer_last_time_reachable = some (now - SAVE_PEERS_MAX_TIME)
            ∧ StoreOp.deletePeerComponent q ∈ su.2)) :
    alLookup q (restore_endpoint now cn su q).1.peer_last_time_reachable
      = some (now - SAVE_PEERS_MAX_TIME)
    ∧ StoreOp.deletePeerComponent q ∈ (restore_endpoint now cn su q).2 := by
  rcases htr with htr | htr
  · unfold restore_endpoint
    have hg : ¬ (q = su.1.my_peer_id ∨ (alLookup q su.1.peer_last_time_reachable).isSome) := by
      intro hg
      rcases hg with hg | hg
      · exact hmy hg
      · rw [htr] at hg
        cases hg
    rw [if_neg hg]
    have hc : component_nonce_from_peer su.1 q = some cn := hpc
    rw [hc]
    dsimp only
    rw [if_pos rfl]
    exact ⟨alLookup_alInsert_self _ _ _,
      List.mem_append.mpr (Or.inr (List.mem_singleton.mpr rfl))⟩
  · exact ⟨restore_endpoint_tracker_some now cn su q q _ htr.1,
      restore_endpoint_ops_mono now cn su q _ htr.2⟩

theorem restore_loop_marks (now cn : Nat) (es : List Edge)
    (su : RoutingTableActor × List StoreOp) (q : PeerId)
    (hq : ∃ e ∈ es, q = e.peer0 ∨ q = e.peer1)
    (hmy : ¬ q = su.1.raw_graph.my_peer_id)
    (hpc : alLookup q su.1.store.peerComponent = some cn)
    (htr : alLookup q su.1.peer_last_time_reachable = none
        ∨ (alLookup q su.1.peer_last_time_reachable = some (now - SAVE_PEERS_MAX_TIME)
            ∧ StoreOp.deletePeerComponent q ∈ su.2)) :
    alLookup q (restore_component_edges now cn su es).1.peer_last_time_reachable
      = some (now - SAVE_PEERS_MAX_TIME)
    ∧ StoreOp.deletePeerComponent q ∈ (restore_component_edges now cn su es).2 := by
  induction es generalizing su with
  | nil =>
    rcases hq with ⟨e, he, _⟩
    cases he
  | cons e rest ih =>
    unfold restore_component_edges
    have hf0 := restore_endpoint_frame now cn su e.peer0
    have hf1 := restore_endpoint_frame now cn (restore_endpoint now cn su e.peer0) e.peer1
    have hfa := add_verified_edge_frame
      (restore_endpoint now cn (restore_endpoint now cn su e.peer0) e.peer1).1 e
    by_cases hqe : q = e.peer0 ∨ q = e.peer1
    · have hstep : alLookup q (restore_endpoint now cn
          (restore_endpoint now cn su e.peer0) e.peer1).1.peer_last_time_reachable
            = some (now - SAVE_PEERS_MAX_TIME)
          ∧ StoreOp.deletePeerComponent q ∈ (restore_endpoint now cn
            (restore_endpoint now cn su e.peer0) e.peer1).2 := by
        by_cases hq0 : q = e.peer0
        · subst hq0
          have hm := restore_endpoint_marks now cn su e.peer0 hmy hpc htr
          exact ⟨restore_endpoint_tracker_some now cn _ e.peer1 e.peer0 _ hm.1,
            restore_endpoint_ops_mono now cn _ e.peer1 _ hm.2⟩
        · have hq1 : q = e.peer1 := by
            rcases hqe with hh | hh
            · exact absurd hh hq0
            · exact hh
          subst hq1
          apply restore_endpoint_marks
          · rw [hf0.2.1]
            exact hmy
          · rw [hf0.2.2.1]
            exact hpc
          · rcases htr with htr | htr
            · exact Or.inl (by
                rw [restore_endpoint_tracker_ne now cn su e.peer0 e.peer1 hq0]
                exact htr)
            · exact Or.inr ⟨restore_endpoint_tracker_some now cn su e.peer0 e.peer1 _ htr.1,
                restore_endpoint_ops_mono now cn su e.peer0 _ htr.2⟩
      · constructor
        · apply restore_loop_tracker_some
          show alLookup q (add_verified_edge _ e).1.peer_last_time_reachable = _
          rw [hfa.2.2.1]
          exact hstep.1
        · exact restore_loop_ops_mono now cn rest _ _ hstep.2
    · have hq0 : ¬ q = e.peer0 := fun hh => hqe (Or.inl hh)
      have hq1 : ¬ q = e.peer1 := fun hh => hqe (Or.inr hh)
      have hq' : ∃ e' ∈ rest, q = e'.peer0 ∨ q = e'.peer1 := by
        rcases hq with ⟨e', he', hqq⟩
        rcases List.mem_cons.mp he' with rfl | he2
        · exact absurd hqq hqe
        · exact ⟨e', he2, hqq⟩
      apply ih _ hq'
      · rw [hfa.2.2.2.2, hf1.2.1, hf0.2.1]
        exact hmy
      · show alLookup q (add_verified_edge _ e).1.store.peerComponent = some cn
        rw [hfa.1, hf1.2.2.1, hf0.2.2.1]
        exact hpc
      · rcases htr with htr | htr
        · refine Or.inl ?_
          show alLookup q (add_verified_edge _ e).1.peer_last_time_reachable = none
          rw [hfa.2.2.1, restore_endpoint_tracker_ne now cn _ e.peer1 q hq1,
            restore_endpoint_tracker_ne now cn su e.peer0 q hq0]
          exact htr
        · refine Or.inr ⟨?_, ?_⟩
          · show alLookup q (add_verified_edge _ e).1.peer_last_time_reachable = _
            rw [hfa.2.2.1]
            exact restore_endpoint_tracker_some now cn _ e.peer1 q _
              (restore_endpoint_tracker_some now cn su e.peer0 q _ htr.1)
          · show StoreOp.deletePeerComponent q ∈ (restore_endpoint now cn
              (restore_endpoint now cn su e.peer0) e.peer1).2
            exact restore_endpoint_ops_mono now cn _ e.peer1 _
              (restore_endpoint_ops_mono now cn su e.peer0 _ htr.2)

theorem add_verified_edge_lookup (s : RoutingTableActor) (e : Edge) (k : PeerId × PeerId) :
    alLookup k (add_verified_edge s e).1.edges_info =
      if k = e.get_pair then
        (if current_nonce s e.get_pair < e.nonce then some e else alLookup k s.edges_info)
      else alLookup k s.edges_info := by
  have hiff : is_edge_newer s e.get_pair e.nonce = true ↔ current_nonce s e.get_pair < e.nonce := by
    unfold is_edge_newer current_nonce
    exact decide_eq_true_iff
  unfold add_verified_edge
  by_cases hb : is_edge_newer s e.get_pair e.nonce = true
  · have hacc := hiff.mp hb
    have hc : ¬ ¬ is_edge_newer s e.get_pair e.nonce = true := by simp [hb]
    rw [if_neg hc]
    by_cases hk : k = e.get_pair
    · subst hk
      show alLookup e.get_pair (alInsert e.get_pair e s.edges_info) = _
      rw [alLookup_alInsert_self, if_pos rfl, if_pos hacc]
    · show alLookup k (alInsert e.get_pair e s.edges_info) = _
      rw [alLookup_alInsert_ne _ _ _ _ hk, if_neg hk]
  · have hnacc : ¬ current_nonce s e.get_pair < e.nonce := fun hh => hb (hiff.mpr hh)
    rw [if_pos hb]
    by_cases hk : k = e.get_pair
    · subst hk
      rw [if_pos rfl, if_neg hnacc]
    · rw [if_neg hk]

theorem restore_loop_edges (now cn : Nat) (es : List Edge)
    (su : RoutingTableActor × List StoreOp) (hkeys : (es.map Edge.get_pair).Nodup) :
    (∀ c ∈ es, alLookup c.get_pair (restore_component_edges now cn su es).1.edges_info =
        if current_nonce su.1 c.get_pair < c.nonce then some c
        else alLookup c.get_pair su.1.edges_info)
    ∧ (∀ k, ¬ k ∈ es.map Edge.get_pair →
        alLookup k (restore_component_edges now cn su es).1.edges_info
          = alLookup k su.1.edges_info) := by
  induction es generalizing su with
  | nil => exact ⟨fun c hc => absurd hc (List.not_mem_nil c), fun k _ => rfl⟩
  | cons e rest ih =>
    simp only [List.map_cons, List.nodup_cons] at hkeys
    obtain ⟨hke, hkr⟩ := hkeys
    unfold restore_component_edges
    have hf0 := restore_endpoint_frame now cn su e.peer0
    have hf1 := restore_endpoint_frame now cn (restore_endpoint now cn su e.peer0) e.peer1
    have hei1 : (restore_endpoint now cn
        (restore_endpoint now cn su e.peer0) e.peer1).1.edges_info = su.1.edges_info := by
      rw [hf1.1, hf0.1]
    have hlookup : ∀ k, alLookup k (add_verified_edge (restore_endpoint now cn
        (restore_endpoint now cn su e.peer0) e.peer1).1 e).1.edges_info =
        if k = e.get_pair then
          (if current_nonce su.1 e.get_pair < e.nonce then some e
            else alLookup k su.1.edges_info)
        else alLookup k su.1.edges_info := by
      intro k
      rw [add_verified_edge_lookup]
      unfold current_nonce
      rw [hei1]
    have ihr := ih ((add_verified_edge (restore_endpoint now cn
      (restore_endpoint now cn su e.peer0) e.peer1).1 e).1,
      (restore_endpoint now cn (restore_endpoint now cn su e.peer0) e.peer1).2) hkr
    constructor
    · intro c hc
      rcases List.mem_cons.mp hc with rfl | hc2
      · have hnm : ¬ c.get_pair ∈ rest.map Edge.get_pair := hke
        rw [ihr.2 c.get_pair hnm]
        have := hlookup c.get_pair
        rw [if_pos rfl] at this
        exact this
      · have hck : ¬ c.get_pair = e.get_pair := by
          intro hck
          rw [← hck] at hke
          exact hke (List.mem_map.mpr ⟨c, hc2, rfl⟩)
      -- rewrite the IH result from the intermediate state back to su.1
        have hmid := ihr.1 c hc2
        have hlk := hlookup c.get_pair
        rw [if_neg hck] at hlk
        have hcn : current_nonce (add_verified_edge (restore_endpoint now cn
            (restore_endpoint now cn su e.peer0) e.peer1).1 e).1 c.get_pair
            = current_nonce su.1 c.get_pair := by
          unfold current_nonce
          rw [hlk]
        rw [hmid, hcn, hlk]
    · intro k hk
      have hk1 : ¬ k = e.get_pair := by
        intro hh
        exact hk (by rw [hh]; exact List.mem_cons_self _ _)
      have hk2 : ¬ k ∈ rest.map Edge.get_pair :=
        fun hh => hk (List.mem_cons_of_mem _ hh)
      rw [ihr.2 k hk2]
      have hlk := hlookup k
      rw [if_neg hk1] at hlk
      exact hlk

theorem fetch_insert_eq (now : Nat) (s : RoutingTableActor) (p : PeerId)
    (h1 : ¬ p = s.my_peer_id) (h2 : alLookup p s.peer_last_time_reachable = none)
    (hC : component_nonce_from_peer s p = none) :
    fetch_edges_for_peer_from_disk now s p
      = { s with peer_last_time_reachable := alInsert p now s.peer_last_time_reachable } := by
  unfold fetch_edges_for_peer_from_disk
  have hg : ¬ (p = s.my_peer_id ∨ (alLookup p s.peer_last_time_reachable).isSome) := by
    intro hg
    rcases hg with hg | hg
    · exact h1 hg
    · rw [h2] at hg
      cases hg
  rw [if_neg hg, hC]

theorem fetch_restore_eq (now : Nat) (s : RoutingTableActor) (p : PeerId) (C : Nat)
    (comp : List Edge)
    (h1 : ¬ p = s.my_peer_id) (h2 : alLookup p s.peer_last_time_reachable = none)
    (hC : component_nonce_from_peer s p = some C)
    (hce : alLookup C s.store.componentEdges = some comp) :
    fetch_edges_for_peer_from_disk now s p =
      { (restore_component_edges now C (s, [StoreOp.deleteComponentEdges C]) comp).1 with
        store := commit
          (restore_component_edges now C (s, [StoreOp.deleteComponentEdges C]) comp).1.store
          (restore_component_edges now C (s, [StoreOp.deleteComponentEdges C]) comp).2 } := by
  unfold fetch_edges_for_peer_from_disk
  have hg : ¬ (p = s.my_peer_id ∨ (alLookup p s.peer_last_time_reachable).isSome) := by
    intro hg
    rcases hg with hg | hg
    · exact h1 hg
    · rw [h2] at hg
      cases hg
  rw [if_neg hg, hC]
  dsimp only
  unfold get_and_remove_component_edges
  dsimp only
  rw [hce]
  simp only [List.nil_append]

/-- Well-formedness of one restored endpoint: a peer with a `PeerComponent` entry is
neither tracked nor the local peer (spill disjointness, spec invariants 4 and 5). -/
abbrev epOk (s : RoutingTableActor) (q : PeerId) : Prop :=
  (component_nonce_from_peer s q).isSome = true →
    (alLookup q s.peer_last_time_reachable = none ∧ ¬ q = s.my_peer_id)

/-- C3 (amended): restore-on-touch for a non-local untracked peer `p`. If `p` has no
`PeerComponent` entry it is inserted into the tracker at `now` and nothing else
changes. If `p` is spilled in component `C` (under spill disjointness and distinct
component edge keys), every member peer of `C` still pointing at `C` is marked
reachable with the backdated timestamp `now - SAVE_PEERS_MAX_TIME` and loses its
`PeerComponent` entry, `ComponentEdges[C]` is deleted, and every edge of `C` is
re-added through the normal verified-edge path, ending up in the Edge Store exactly
when no edge with the same key and an equal-or-higher nonce was already present (the
original claim said `strictly newer`, but an already-present edge with an equal nonce
also blocks the restore). -/
theorem C3_restore_amended (now : Nat) (s : RoutingTableActor) (p : PeerId)
    (h1 : ¬ p = s.my_peer_id) (h2 : alLookup p s.peer_last_time_reachable = none) :
    (component_nonce_from_peer s p = none →
      fetch_edges_for_peer_from_disk now s p
        = { s with peer_last_time_reachable := alInsert p now s.peer_last_time_reachable })
    ∧ (∀ C comp, component_nonce_from_peer s p = some C →
        alLookup C s.store.componentEdges = some comp →
        (∀ e ∈ comp, epOk s e.peer0 ∧ epOk s e.peer1) →
        (comp.map Edge.get_pair).Nodup →
        (∀ q, (∃ e ∈ comp, q = e.peer0 ∨ q = e.peer1) →
          alLookup q s.store.peerComponent = some C →
          alLookup q (fetch_edges_for_peer_from_disk now s p).peer_last_time_reachable
            = some (now - SAVE_PEERS_MAX_TIME)
          ∧ alLookup q (fetch_edges_for_peer_from_disk now s p).store.peerComponent = none)
        ∧ alLookup C (fetch_edges_for_peer_from_disk now s p).store.componentEdges = none
        ∧ (∀ c ∈ comp, alLookup c.get_pair (fetch_edges_for_peer_from_disk now s p).edges_info
            = if current_nonce s c.get_pair < c.nonce then some c
              else alLookup c.get_pair s.edges_info)) := by
  refine ⟨fetch_insert_eq now s p h1 h2, ?_⟩
  intro C comp hC hce hok hkeys
  have heq := fetch_restore_eq now s p C comp h1 h2 hC hce
  have hod : onlyDeletes
      (restore_component_edges now C (s, [StoreOp.deleteComponentEdges C]) comp).2 := by
    intro op hop
    rcases restore_loop_ops now C comp _ op hop with hm | hm
    · exact Or.inr ⟨C, List.mem_singleton.mp hm⟩
    · exact Or.inl hm
  refine ⟨?_, ?_, ?_⟩
  · intro q hq hqpc
    have hqsome : (component_nonce_from_peer s q).isSome = true := by
      show (alLookup q s.store.peerComponent).isSome = true
      rw [hqpc]
      rfl
    have hep : alLookup q s.peer_last_time_reachable = none ∧ ¬ q = s.my_peer_id := by
      rcases hq with ⟨e, he, hq01⟩
      have hoke := hok e he
      rcases hq01 with rfl | rfl
      · exact hoke.1 hqsome
      · exact hoke.2 hqsome
    have hm := restore_loop_marks now C comp (s, [StoreOp.deleteComponentEdges C]) q hq
      hep.2 hqpc (Or.inl hep.1)
    rw [heq]
    exact ⟨hm.1, commit_deletes_pc_none _ _ q hod hm.2⟩
  · rw [heq]
    exact commit_deletes_ce_none _ _ C hod
      (restore_loop_ops_mono now C comp _ _ (List.mem_singleton.mpr rfl))
  · intro c hc
    rw [heq]
    exact (restore_loop_edges now C comp (s, [StoreOp.deleteComponentEdges C]) hkeys).1 c hc

/-- C3 counterexample to the claim as stated: peer 3 is spilled in component 4 whose
single edge is `(3, 9, nonce 4, Added)`, while the Edge Store already holds a distinct
edge `(3, 9, nonce 4, Removed)` with the SAME nonce. Touching peer 3 restores the
component, but the component edge is rejected and does not end up in the Edge Store,
even though no strictly newer edge with its key was present (the stored edge's nonce
is merely equal). -/
theorem C3_counterexample :
    (fetch_edges_for_peer_from_disk 100000
      { RoutingTableActor.new 0 Store.empty with
          store := { lastComponentNonce := some 5
                     componentEdges := [(4, [⟨3, 9, 4, EdgeType.Added, 0, 0⟩])]
                     peerComponent := [(3, 4), (9, 4)] }
          edges_info := [((3, 9), ⟨3, 9, 4, EdgeType.Removed, 0, 0⟩)] } 3).edges_info
      = [((3, 9), ⟨3, 9, 4, EdgeType.Removed, 0, 0⟩)]
    ∧ (⟨3, 9, 4, EdgeType.Removed, 0, 0⟩ : Edge) ≠ ⟨3, 9, 4, EdgeType.Added, 0, 0⟩
    ∧ (⟨3, 9, 4, EdgeType.Removed, 0, 0⟩ : Edge).nonce
        = (⟨3, 9, 4, EdgeType.Added, 0, 0⟩ : Edge).nonce := by decide

/-- Witness for the amended C3 theorem at a concrete spilled component. -/
theorem C3_restore_amended_witness :
    alLookup 4 (fetch_edges_for_peer_from_disk 100000
      { RoutingTableActor.new 0 Store.empty with
          store := { lastComponentNonce := some 5
                     componentEdges := [(4, [⟨3, 9, 4, EdgeType.Added, 0, 0⟩])]
                     peerComponent := [(3, 4), (9, 4)] } } 3).store.componentEdges = none :=
  ((C3_restore_amended 100000
    { RoutingTableActor.new 0 Store.empty with
        store := { lastComponentNonce := some 5
                   componentEdges := [(4, [⟨3, 9, 4, EdgeType.Added, 0, 0⟩])]
                   peerComponent := [(3, 4), (9, 4)] } } 3
    (by decide) rfl).2 4 [⟨3, 9, 4, EdgeType.Added, 0, 0⟩] rfl rfl
    (by decide) (by decide)).2.1

/-! ## Claim C8: idempotence of AddVerifiedEdges -/

/-- All endpoints mentioned by a list of edges. -/
def endpointsOf (l : List Edge) : List PeerId :=
  l.foldr (fun e acc => e.peer0 :: e.peer1 :: acc) []

theorem mem_endpointsOf_cons (p : PeerId) (e : Edge) (rest : List Edge) :
    p ∈ endpointsOf (e :: rest) ↔ (p = e.peer0 ∨ p = e.peer1 ∨ p ∈ endpointsOf rest) := by
  unfold endpointsOf
  simp

/-- A peer is settled for the fetch path: local, tracked, or spilled with its
component's edges already deleted from the store. -/
def Pend (s : RoutingTableActor) (p : PeerId) : Prop :=
  p = s.my_peer_id ∨ (alLookup p s.peer_last_time_reachable).isSome = true
  ∨ (∃ C, alLookup p s.store.peerComponent = some C
      ∧ alLookup C s.store.componentEdges = none)

theorem fetch_of_Pend (now : Nat) (s : RoutingTableActor) (p : PeerId)
    (h : Pend s p) : fetch_edges_for_peer_from_disk now s p = s := by
  unfold fetch_edges_for_peer_from_disk
  by_cases hg : p = s.my_peer_id ∨ (alLookup p s.peer_last_time_reachable).isSome
  · rw [if_pos hg]
  · rw [if_neg hg]
    rcases h with h | h | ⟨C, hpc, hce⟩
    · exact absurd (Or.inl h) hg
    · exact absurd (Or.inr h) hg
    · have hc : component_nonce_from_peer s p = some C := hpc
      rw [hc]
      dsimp only
      unfold get_and_remove_component_edges
      dsimp only
      rw [hce]
      simp only [List.nil_append]
      have hcm : commit s.store [StoreOp.deleteComponentEdges C] = s.store := by
        show { s.store with componentEdges := alErase C s.store.componentEdges } = s.store
        rw [alErase_of_lookup_none _ _ hce]
      rw [hcm]

theorem av_reject_of_not_lt (s : RoutingTableActor) (e : Edge)
    (h : ¬ current_nonce s e.get_pair < e.nonce) :
    add_verified_edge s e = (s, false) := by
  unfold add_verified_edge
  have hb : ¬ is_edge_newer s e.get_pair e.nonce = true := by
    unfold current_nonce at h
    unfold is_edge_newer
    simpa using h
  rw [if_pos hb]

theorem settled_batch_noop (now : Nat) (l : List Edge) (s : RoutingTableActor)
    (hn : ∀ e ∈ l, ¬ current_nonce s e.get_pair < e.nonce)
    (hp : ∀ p ∈ endpointsOf l, Pend s p) :
    add_verified_edges_to_routing_table now s l = (s, []) := by
  induction l generalizing s with
  | nil => rfl
  | cons e rest ih =>
    unfold add_verified_edges_to_routing_table
    have hp0 : Pend s e.peer0 := hp e.peer0 ((mem_endpointsOf_cons _ e rest).mpr (Or.inl rfl))
    have hp1 : Pend s e.peer1 :=
      hp e.peer1 ((mem_endpointsOf_cons _ e rest).mpr (Or.inr (Or.inl rfl)))
    dsimp only
    simp only [Edge.get_pair]
    rw [fetch_of_Pend now s e.peer0 hp0, fetch_of_Pend now s e.peer1 hp1]
    rw [av_reject_of_not_lt s e (hn e (List.mem_cons_self _ _))]
    rw [ih s (fun e2 he2 => hn e2 (List.mem_cons_of_mem _ he2))
      (fun p hpm => hp p ((mem_endpointsOf_cons _ e rest).mpr (Or.inr (Or.inr hpm))))]
    rfl

theorem fetch_tracker_some (now : Nat) (s : RoutingTableActor) (q x : PeerId) (v : Nat)
    (h : alLookup x s.peer_last_time_reachable = some v) :
    alLookup x (fetch_edges_for_peer_from_disk now s q).peer_last_time_reachable = some v := by
  unfold fetch_edges_for_peer_from_disk
  by_cases hg : q = s.my_peer_id ∨ (alLookup q s.peer_last_time_reachable).isSome
  · rw [if_pos hg]
    exact h
  · rw [if_neg hg]
    cases hc : component_nonce_from_peer s q with
    | none =>
      show alLookup x (alInsert q now s.peer_last_time_reachable) = some v
      have hxq : ¬ x = q := by
        intro hxq
        subst hxq
        rw [h] at hg
        exact hg (Or.inr rfl)
      rw [alLookup_alInsert_ne _ _ _ _ hxq]
      exact h
    | some cn =>
      dsimp only
      unfold get_and_remove_component_edges
      dsimp only
      cases hce : alLookup cn s.store.componentEdges with
      | none =>
        dsimp only
        exact h
      | some edges =>
        dsimp only
        exact restore_loop_tracker_some now cn edges (s, _) x v h

theorem restore_endpoint_marked_tracked (now cn : Nat)
    (su : RoutingTableActor × List StoreOp) (q : PeerId)
    (hyp : ∀ x, StoreOp.deletePeerComponent x ∈ su.2 →
      (alLookup x su.1.peer_last_time_reachable).isSome = true) :
    ∀ x, StoreOp.deletePeerComponent x ∈ (restore_endpoint now cn su q).2 →
      (alLookup x (restore_endpoint now cn su q).1.peer_last_time_reachable).isSome = true := by
  intro x hmem
  unfold restore_endpoint at hmem ⊢
  by_cases hg : q = su.1.my_peer_id ∨ (alLookup q su.1.peer_last_time_reachable).isSome
  · rw [if_pos hg] at hmem ⊢
    exact hyp x hmem
  · rw [if_neg hg] at hmem ⊢
    cases hc : component_nonce_from_peer su.1 q with
    | none =>
      rw [hc] at hmem
      dsimp only at hmem ⊢
      exact hyp x hmem
    | some cur =>
      rw [hc] at hmem
      dsimp only at hmem ⊢
      by_cases he : cur = cn
      · rw [if_pos he] at hmem ⊢
        show (alLookup x (alInsert q (now - SAVE_PEERS_MAX_TIME)
          su.1.peer_last_time_reachable)).isSome = true
        rcases List.mem_append.mp hmem with hm | hm
        · by_cases hxq : x = q
          · subst hxq
            rw [alLookup_alInsert_self]
            rfl
          · rw [alLookup_alInsert_ne _ _ _ _ hxq]
            exact hyp x hm
        · have : x = q := by
            have := List.mem_singleton.mp hm
            injection this
          subst this
          rw [alLookup_alInsert_self]
          rfl
      · rw [if_neg he] at hmem ⊢
        exact hyp x hmem

theorem restore_loop_marked_tracked (now cn : Nat) (es : List Edge)
    (su : RoutingTableActor × List StoreOp)
    (hyp : ∀ x, StoreOp.deletePeerComponent x ∈ su.2 →
      (alLookup x su.1.peer_last_time_reachable).isSome = true) :
    ∀ x, StoreOp.deletePeerComponent x ∈ (restore_component_edges now cn su es).2 →
      (alLookup x (restore_component_edges now cn su es).1.peer_last_time_reachable).isSome
        = true := by
  induction es generalizing su with
  | nil => exact hyp
  | cons e rest ih =>
    unfold restore_component_edges
    apply ih
    intro x hmem
    show (alLookup x (add_verified_edge _ e).1.peer_last_time_reachable).isSome = true
    rw [(add_verified_edge_frame _ e).2.2.1]
    exact restore_endpoint_marked_tracked now cn _ e.peer1
      (restore_endpoint_marked_tracked now cn su e.peer0 hyp) x hmem

theorem fetch_self_Pend (now : Nat) (s : RoutingTableActor) (p : PeerId) :
    Pend (fetch_edges_for_peer_from_disk now s p) p := by
  by_cases hg : p = s.my_peer_id ∨ (alLookup p s.peer_last_time_reachable).isSome
  · have heq : fetch_edges_for_peer_from_disk now s p = s := by
      unfold fetch_edges_for_peer_from_disk
      rw [if_pos hg]
    rw [heq]
    rcases hg with hg | hg
    · exact Or.inl hg
    · exact Or.inr (Or.inl hg)
  · unfold fetch_edges_for_peer_from_disk
    rw [if_neg hg]
    cases hc : component_nonce_from_peer s p with
    | none =>
      refine Or.inr (Or.inl ?_)
      show (alLookup p (alInsert p now s.peer_last_time_reachable)).isSome = true
      rw [alLookup_alInsert_self]
      rfl
    | some cn =>
      dsimp only
      unfold get_and_remove_component_edges
      dsimp only
      cases hce : alLookup cn s.store.componentEdges with
      | none =>
        dsimp only
        refine Or.inr (Or.inr ⟨cn, ?_, ?_⟩)
        · show alLookup p (commit s.store ([] ++ [StoreOp.deleteComponentEdges cn])).peerComponent
            = some cn
          exact hc
        · show alLookup cn (commit s.store
            ([] ++ [StoreOp.deleteComponentEdges cn])).componentEdges = none
          simp only [List.nil_append]
          show alLookup cn (alErase cn s.store.componentEdges) = none
          exact alLookup_alErase_self _ _
      | some edges =>
        dsimp only
        simp only [List.nil_append]
        have hod : onlyDeletes (restore_component_edges now cn
            (s, [StoreOp.deleteComponentEdges cn]) edges).2 := by
          intro op hop
          rcases restore_loop_ops now cn edges _ op hop with hm | hm
          · exact Or.inr ⟨cn, List.mem_singleton.mp hm⟩
          · exact Or.inl hm
        by_cases hdel : StoreOp.deletePeerComponent p ∈ (restore_component_edges now cn
            (s, [StoreOp.deleteComponentEdges cn]) edges).2
        · refine Or.inr (Or.inl ?_)
          show (alLookup p (restore_component_edges now cn
            (s, [StoreOp.deleteComponentEdges cn]) edges).1.peer_last_time_reachable).isSome
              = true
          apply restore_loop_marked_tracked now cn edges _ ?_ p hdel
          intro x hx
          have := List.mem_singleton.mp hx
          cases this
        · refine Or.inr (Or.inr ⟨cn, ?_, ?_⟩)
          · show alLookup p (commit (restore_component_edges now cn
              (s, [StoreOp.deleteComponentEdges cn]) edges).1.store
              (restore_component_edges now cn
                (s, [StoreOp.deleteComponentEdges cn]) edges).2).peerComponent = some cn
            rw [commit_deletes_pc_not_mem _ _ p hod hdel,
              (restore_loop_frame now cn edges _).1]
            exact hc
          · show alLookup cn (commit (restore_component_edges now cn
              (s, [StoreOp.deleteComponentEdges cn]) edges).1.store
              (restore_component_edges now cn
                (s, [StoreOp.deleteComponentEdges cn]) edges).2).componentEdges = none
            exact commit_deletes_ce_none _ _ cn hod
              (restore_loop_ops_mono now cn edges _ _ (List.mem_singleton.mpr rfl))

theorem Pend_av (s : RoutingTableActor) (e : Edge) (p : PeerId) (h : Pend s p) :
    Pend (add_verified_edge s e).1 p := by
  have hf := add_verified_edge_frame s e
  rcases h with h | h | ⟨C, hpc, hce⟩
  · refine Or.inl ?_
    show p = (add_verified_edge s e).1.raw_graph.my_peer_id
    rw [hf.2.2.2.2]
    exact h
  · refine Or.inr (Or.inl ?_)
    rw [hf.2.2.1]
    exact h
  · refine Or.inr (Or.inr ⟨C, ?_, ?_⟩)
    · rw [hf.1]
      exact hpc
    · rw [hf.1]
      exact hce

theorem Pend_fetch (now : Nat) (s : RoutingTableActor) (q p : PeerId) (h : Pend s p) :
    Pend (fetch_edges_for_peer_from_disk now s q) p := by
  unfold fetch_edges_for_peer_from_disk
  by_cases hg : q = s.my_peer_id ∨ (alLookup q s.peer_last_time_reachable).isSome
  · rw [if_pos hg]
    exact h
  · rw [if_neg hg]
    cases hc : component_nonce_from_peer s q with
    | none =>
      rcases h with h | h | ⟨C, hpc, hce⟩
      · exact Or.inl h
      · refine Or.inr (Or.inl ?_)
        show (alLookup p (alInsert q now s.peer_last_time_reachable)).isSome = true
        by_cases hpq : p = q
        · subst hpq
          rw [alLookup_alInsert_self]
          rfl
        · rw [alLookup_alInsert_ne _ _ _ _ hpq]
          exact h
      · exact Or.inr (Or.inr ⟨C, hpc, hce⟩)
    | some cn =>
      dsimp only
      unfold get_and_remove_component_edges
      dsimp only
      cases hce1 : alLookup cn s.store.componentEdges with
      | none =>
        dsimp only
        simp only [List.nil_append]
        rcases h with h | h | ⟨C, hpc, hce2⟩
        · exact Or.inl h
        · exact Or.inr (Or.inl h)
        · refine Or.inr (Or.inr ⟨C, hpc, ?_⟩)
          show alLookup C (alErase cn s.store.componentEdges) = none
          by_cases hC : C = cn
          · subst hC
            exact alLookup_alErase_self _ _
          · rw [alLookup_alErase_ne _ _ _ hC]
            exact hce2
      | some edges =>
        dsimp only
        simp only [List.nil_append]
        have hod : onlyDeletes (restore_component_edges now cn
            (s, [StoreOp.deleteComponentEdges cn]) edges).2 := by
          intro op hop
          rcases restore_loop_ops now cn edges _ op hop with hm | hm
          · exact Or.inr ⟨cn, List.mem_singleton.mp hm⟩
          · exact Or.inl hm
        rcases h with h | h | ⟨C, hpc, hce2⟩
        · refine Or.inl ?_
          show p = (restore_component_edges now cn
            (s, [StoreOp.deleteComponentEdges cn]) edges).1.raw_graph.my_peer_id
          rw [(restore_loop_frame now cn edges _).2.2.2]
          exact h
        · refine Or.inr (Or.inl ?_)
          rcases Option.isSome_iff_exists.mp h with ⟨v, hv⟩
          show (alLookup p (restore_component_edges now cn
            (s, [StoreOp.deleteComponentEdges cn]) edges).1.peer_last_time_reachable).isSome
              = true
          rw [restore_loop_tracker_some now cn edges _ p v hv]
          rfl
        · by_cases hdel : StoreOp.deletePeerComponent p ∈ (restore_component_edges now cn
              (s, [StoreOp.deleteComponentEdges cn]) edges).2
          · refine Or.inr (Or.inl ?_)
            apply restore_loop_marked_tracked now cn edges _ ?_ p hdel
            intro x hx
            cases List.mem_singleton.mp hx
          · refine Or.inr (Or.inr ⟨C, ?_, ?_⟩)
            · show alLookup p (commit (restore_component_edges now cn
                (s, [StoreOp.deleteComponentEdges cn]) edges).1.store
                (restore_component_edges now cn
                  (s, [StoreOp.deleteComponentEdges cn]) edges).2).peerComponent = some C
              rw [commit_deletes_pc_not_mem _ _ p hod hdel,
                (restore_loop_frame now cn edges _).1]
              exact hpc
            · show alLookup C (commit (restore_component_edges now cn
                (s, [StoreOp.deleteComponentEdges cn]) edges).1.store
                (restore_component_edges now cn
                  (s, [StoreOp.deleteComponentEdges cn]) edges).2).componentEdges = none
              apply commit_deletes_ce_preserve_none _ _ _ hod
              rw [(restore_loop_frame now cn edges _).1]
              exact hce2

theorem Pend_batch_preserve (now : Nat) (l : List Edge) (s : RoutingTableActor) (p : PeerId)
    (h : Pend s p) : Pend (add_verified_edges_to_routing_table now s l).1 p := by
  induction l generalizing s with
  | nil => exact h
  | cons e rest ih =>
    unfold add_verified_edges_to_routing_table
    exact ih _ (Pend_av _ e p (Pend_fetch now _ e.get_pair.2 p
      (Pend_fetch now s e.get_pair.1 p h)))

theorem cn_congr (s1 s2 : RoutingTableActor) (k : PeerId × PeerId)
    (h : s1.edges_info = s2.edges_info) : current_nonce s1 k = current_nonce s2 k := by
  unfold current_nonce
  rw [h]

theorem cn_av_mono (s : RoutingTableActor) (e : Edge) (k : PeerId × PeerId) :
    current_nonce s k ≤ current_nonce (add_verified_edge s e).1 k := by
  unfold current_nonce
  rw [add_verified_edge_lookup]
  by_cases hk : k = e.get_pair
  · rw [if_pos hk]
    by_cases hacc : current_nonce s e.get_pair < e.nonce
    · rw [if_pos hacc]
      subst hk
      unfold current_nonce at hacc
      simpa using Nat.le_of_lt hacc
    · rw [if_neg hacc]
  · rw [if_neg hk]

theorem cn_loop_mono (now cn : Nat) (es : List Edge) (su : RoutingTableActor × List StoreOp)
    (k : PeerId × PeerId) :
    current_nonce su.1 k ≤ current_nonce (restore_component_edges now cn su es).1 k := by
  induction es generalizing su with
  | nil => exact Nat.le_refl _
  | cons e rest ih =>
    unfold restore_component_edges
    dsimp only
    have hf0 := restore_endpoint_frame now cn su e.peer0
    have hf1 := restore_endpoint_frame now cn (restore_endpoint now cn su e.peer0) e.peer1
    have h1 : current_nonce su.1 k = current_nonce (restore_endpoint now cn
        (restore_endpoint now cn su e.peer0) e.peer1).1 k := by
      apply cn_congr
      rw [hf1.1, hf0.1]
    calc current_nonce su.1 k
        = current_nonce (restore_endpoint now cn
            (restore_endpoint now cn su e.peer0) e.peer1).1 k := h1
      _ ≤ current_nonce (add_verified_edge (restore_endpoint now cn
            (restore_endpoint now cn su e.peer0) e.peer1).1 e).1 k := cn_av_mono _ e k
      _ ≤ _ := ih ((add_verified_edge (restore_endpoint now cn
            (restore_endpoint now cn su e.peer0) e.peer1).1 e).1,
          (restore_endpoint now cn (restore_endpoint now cn su e.peer0) e.peer1).2)

theorem cn_fetch_mono (now : Nat) (s : RoutingTableActor) (q : PeerId)
    (k : PeerId × PeerId) :
    current_nonce s k ≤ current_nonce (fetch_edges_for_peer_from_disk now s q) k := by
  unfold fetch_edges_for_peer_from_disk
  by_cases hg : q = s.my_peer_id ∨ (alLookup q s.peer_last_time_reachable).isSome
  · rw [if_pos hg]
  · rw [if_neg hg]
    cases hc : component_nonce_from_peer s q with
    | none => exact Nat.le_refl _
    | some cn =>
      dsimp only
      unfold get_and_remove_component_edges
      dsimp only
      cases hce : alLookup cn s.store.componentEdges with
      | none => exact Nat.le_refl _
      | some edges =>
        dsimp only
        exact cn_loop_mono now cn edges (s, _) k

theorem cn_batch_mono (now : Nat) (l : List Edge) (s : RoutingTableActor)
    (k : PeerId × PeerId) :
    current_nonce s k ≤ current_nonce (add_verified_edges_to_routing_table now s l).1 k := by
  induction l generalizing s with
  | nil => exact Nat.le_refl _
  | cons e rest ih =>
    unfold add_verified_edges_to_routing_table
    calc current_nonce s k
        ≤ current_nonce (fetch_edges_for_peer_from_disk now s e.get_pair.1) k :=
          cn_fetch_mono now s _ k
      _ ≤ current_nonce (fetch_edges_for_peer_from_disk now
            (fetch_edges_for_peer_from_disk now s e.get_pair.1) e.get_pair.2) k :=
          cn_fetch_mono now _ _ k
      _ ≤ current_nonce (add_verified_edge (fetch_edges_for_peer_from_disk now
            (fetch_edges_for_peer_from_disk now s e.get_pair.1) e.get_pair.2) e).1 k :=
          cn_av_mono _ e k
      _ ≤ _ := ih _

theorem av_own (s : RoutingTableActor) (e : Edge) :
    e.nonce ≤ current_nonce (add_verified_edge s e).1 e.get_pair := by
  unfold current_nonce
  rw [add_verified_edge_lookup, if_pos rfl]
  by_cases hacc : current_nonce s e.get_pair < e.nonce
  · rw [if_pos hacc]
    simp
  · rw [if_neg hacc]
    unfold current_nonce at hacc
    exact Nat.le_of_not_lt hacc

theorem batch_settles (now : Nat) (l : List Edge) (s : RoutingTableActor) :
    ∀ e ∈ l, e.nonce ≤
      current_nonce (add_verified_edges_to_routing_table now s l).1 e.get_pair := by
  induction l generalizing s with
  | nil => exact fun e he => absurd he (List.not_mem_nil e)
  | cons f rest ih =>
    intro e he
    rcases List.mem_cons.mp he with rfl | he2
    · show e.nonce ≤ current_nonce (add_verified_edges_to_routing_table now
        (add_verified_edge (fetch_edges_for_peer_from_disk now
          (fetch_edges_for_peer_from_disk now s e.get_pair.1) e.get_pair.2) e).1 rest).1
        e.get_pair
      exact Nat.le_trans (av_own _ e) (cn_batch_mono now rest _ e.get_pair)
    · exact ih _ e he2

theorem batch_Pend (now : Nat) (l : List Edge) (s : RoutingTableActor) :
    ∀ p ∈ endpointsOf l, Pend (add_verified_edges_to_routing_table now s l).1 p := by
  induction l generalizing s with
  | nil => exact fun p hp => absurd hp (List.not_mem_nil p)
  | cons e rest ih =>
    intro p hp
    rcases (mem_endpointsOf_cons p e rest).mp hp with rfl | hp2
    · show Pend (add_verified_edges_to_routing_table now
        (add_verified_edge (fetch_edges_for_peer_from_disk now
          (fetch_edges_for_peer_from_disk now s e.get_pair.1) e.get_pair.2) e).1 rest).1
        e.peer0
      apply Pend_batch_preserve
      apply Pend_av
      apply Pend_fetch
      exact fetch_self_Pend now s e.peer0
    · rcases hp2 with rfl | hp3
      · show Pend (add_verified_edges_to_routing_table now
          (add_verified_edge (fetch_edges_for_peer_from_disk now
            (fetch_edges_for_peer_from_disk now s e.get_pair.1) e.get_pair.2) e).1 rest).1
          e.peer1
        apply Pend_batch_preserve
        apply Pend_av
        exact fetch_self_Pend now _ e.peer1
      · exact ih _ p hp3

/-- C8: AddVerifiedEdges is idempotent — running the same batch twice in a row leaves
the whole actor state (Edge Store, Overlay Graph, tracker, store, and dirty flag)
exactly as after the first run, and the second run accepts no edge. -/
theorem C8_idempotence (now1 now2 : Nat) (s : RoutingTableActor) (E : List Edge) :
    add_verified_edges_to_routing_table now2
        (add_verified_edges_to_routing_table now1 s E).1 E
      = ((add_verified_edges_to_routing_table now1 s E).1, []) := by
  apply settled_batch_noop
  · intro e he
    exact Nat.not_lt.mpr (batch_settles now1 E s e he)
  · intro p hp
    exact batch_Pend now1 E s p hp

/-! ## Claim C9: batch order sensitivity -/

/-- The first edge of the list carrying the given key that beats the nonce stored for
that key in the given (initial) state. -/
def findAccepted (s : RoutingTableActor) (E : List Edge) (k : PeerId × PeerId) :
    Option Edge :=
  E.find? (fun e => decide (e.get_pair = k) && is_edge_newer s e.get_pair e.nonce)

theorem mem_endpointsOf_iff (p : PeerId) (l : List Edge) :
    p ∈ endpointsOf l ↔ ∃ e ∈ l, p = e.peer0 ∨ p = e.peer1 := by
  induction l with
  | nil =>
    unfold endpointsOf
    simp
  | cons e rest ih =>
    rw [mem_endpointsOf_cons, ih]
    constructor
    · rintro (h | h | ⟨e2, he2, h⟩)
      · exact ⟨e, List.mem_cons_self _ _, Or.inl h⟩
      · exact ⟨e, List.mem_cons_self _ _, Or.inr h⟩
      · exact ⟨e2, List.mem_cons_of_mem _ he2, h⟩
    · rintro ⟨e2, he2, h⟩
      rcases List.mem_cons.mp he2 with rfl | he3
      · rcases h with h | h
        · exact Or.inl h
        · exact Or.inr (Or.inl h)
      · exact Or.inr (Or.inr ⟨e2, he3, h⟩)

theorem find?_congr {α : Type} (l : List α) (p q : α → Bool)
    (h : ∀ a ∈ l, p a = q a) : l.find? p = l.find? q := by
  induction l with
  | nil => rfl
  | cons a rest ih =>
    rw [List.find?_cons, List.find?_cons, h a (List.mem_cons_self _ _)]
    cases q a
    · exact ih (fun b hb => h b (List.mem_cons_of_mem _ hb))
    · rfl

theorem any_perm {α : Type} (l1 l2 : List α) (h : l1.Perm l2) (f : α → Bool) :
    l1.any f = l2.any f := by
  apply Bool.eq_iff_iff.mpr
  rw [List.any_eq_true, List.any_eq_true]
  constructor
  · rintro ⟨x, hx, hfx⟩
    exact ⟨x, h.mem_iff.mp hx, hfx⟩
  · rintro ⟨x, hx, hfx⟩
    exact ⟨x, h.mem_iff.mpr hx, hfx⟩

theorem find?_perm_of_unique {α : Type} (l1 l2 : List α) (h : l1.Perm l2) (p : α → Bool)
    (huniq : ∀ a ∈ l1, ∀ b ∈ l1, p a = true → p b = true → a = b) :
    l1.find? p = l2.find? p := by
  cases h1 : l1.find? p with
  | none =>
    cases h2 : l2.find? p with
    | none => rfl
    | some b =>
      have hb := List.find?_some h2
      have hbm := h.mem_iff.mpr (List.mem_of_find?_eq_some h2)
      rw [List.find?_eq_none] at h1
      exact absurd hb (h1 b hbm)
  | some a =>
    cases h2 : l2.find? p with
    | none =>
      have ha := List.find?_some h1
      have ham := h.mem_iff.mp (List.mem_of_find?_eq_some h1)
      rw [List.find?_eq_none] at h2
      exact absurd ha (h2 a ham)
    | some b =>
      have ha := List.find?_some h1
      have hb := List.find?_some h2
      have ham := List.mem_of_find?_eq_some h1
      have hbm := h.mem_iff.mpr (List.mem_of_find?_eq_some h2)
      rw [huniq a ham b hbm ha hb]

/-- With distinct keys in the batch, at most one edge matches the `findAccepted`
predicate for any key. -/
theorem findAccepted_unique (s : RoutingTableActor) (E : List Edge)
    (hkeys : (E.map Edge.get_pair).Nodup) (k : PeerId × PeerId) :
    ∀ a ∈ E, ∀ b ∈ E,
      (decide (a.get_pair = k) && is_edge_newer s a.get_pair a.nonce) = true →
      (decide (b.get_pair = k) && is_edge_newer s b.get_pair b.nonce) = true →
      a = b := by
  intro a ha b hb hpa hpb
  simp only [Bool.and_eq_true, decide_eq_true_eq] at hpa hpb
  exact List.inj_on_of_nodup_map hkeys ha hb (hpa.1.trans hpb.1.symm)

/-- Under the no-spilled-endpoint hypothesis, a fetch either does nothing or merely
starts tracking the peer at `now`. -/
theorem fetch_no_restore (now : Nat) (s : RoutingTableActor) (p : PeerId)
    (h : p = s.my_peer_id ∨ (alLookup p s.peer_last_time_reachable).isSome = true
      ∨ alLookup p s.store.peerComponent = none) :
    fetch_edges_for_peer_from_disk now s p =
      if p = s.my_peer_id ∨ (alLookup p s.peer_last_time_reachable).isSome = true then s
      else { s with peer_last_time_reachable := alInsert p now s.peer_last_time_reachable } := by
  unfold fetch_edges_for_peer_from_disk
  by_cases hg : p = s.my_peer_id ∨ (alLookup p s.peer_last_time_reachable).isSome
  · rw [if_pos hg, if_pos (by simpa using hg)]
  · have hpc : component_nonce_from_peer s p = none := by
      rcases h with h | h | h
      · exact absurd (Or.inl h) hg
      · exact absurd (Or.inr (by simpa using h)) hg
      · exact h
    rw [if_neg hg, hpc, if_neg (by simpa using hg)]

/-- Tracker lookup after a no-restore fetch. -/
theorem fetch_no_restore_tracker (now : Nat) (s : RoutingTableActor) (p x : PeerId)
    (h : p = s.my_peer_id ∨ (alLookup p s.peer_last_time_reachable).isSome = true
      ∨ alLookup p s.store.peerComponent = none) :
    alLookup x (fetch_edges_for_peer_from_disk now s p).peer_last_time_reachable =
      if x = p ∧ ¬ p = s.my_peer_id ∧ alLookup p s.peer_last_time_reachable = none
      then some now else alLookup x s.peer_last_time_reachable := by
  rw [fetch_no_restore now s p h]
  by_cases hg : p = s.my_peer_id ∨ (alLookup p s.peer_last_time_reachable).isSome = true
  · rw [if_pos hg]
    rcases hg with hg | hg
    · rw [if_neg (fun hc => hc.2.1 hg)]
    · rw [if_neg (fun hc => by
        rcases Option.isSome_iff_exists.mp hg with ⟨v, hv⟩
        rw [hv] at hc
        cases hc.2.2)]
  · rw [if_neg hg]
    push_neg at hg
    have hnone : alLookup p s.peer_last_time_reachable = none := by
      cases hl : alLookup p s.peer_last_time_reachable with
      | none => rfl
      | some v =>
        exact absurd (by rw [hl]; rfl) hg.2
    by_cases hx : x = p
    · subst hx
      show alLookup x (alInsert x now s.peer_last_time_reachable) = _
      rw [alLookup_alInsert_self, if_pos ⟨rfl, hg.1, hnone⟩]
    · show alLookup x (alInsert p now s.peer_last_time_reachable) = _
      rw [alLookup_alInsert_ne _ _ _ _ hx, if_neg (fun hc => hx hc.1)]

/-- The dirty flag after one upsert. -/
theorem av_flag (s : RoutingTableActor) (e : Edge) :
    (add_verified_edge s e).1.needs_routing_table_recalculation =
      (s.needs_routing_table_recalculation || is_edge_newer s e.get_pair e.nonce) := by
  unfold add_verified_edge
  by_cases hb : is_edge_newer s e.get_pair e.nonce = true
  · rw [if_neg (by simp [hb]), hb, Bool.or_true]
  · rw [if_pos hb]
    simp only [Bool.not_eq_true] at hb
    rw [hb, Bool.or_false]

/-- Overlay Graph membership after one upsert. -/
theorem av_graph_mem (s : RoutingTableActor) (e : Edge) (k : PeerId × PeerId) :
    (k ∈ (add_verified_edge s e).1.raw_graph.edges ↔
      (if (decide (e.get_pair = k) && is_edge_newer s e.get_pair e.nonce) = true
        then e.kind = EdgeType.Added
        else k ∈ s.raw_graph.edges)) := by
  unfold add_verified_edge
  by_cases hb : is_edge_newer s e.get_pair e.nonce = true
  · rw [if_neg (by simp [hb])]
    by_cases hk : e.get_pair = k
    · subst hk
      rw [if_pos (by simp [hb])]
      cases hkind : e.edge_type with
      | Added =>
        simp only [hkind]
        unfold Edge.edge_type at hkind
        show e.get_pair ∈ (Graph.add_edge s.raw_graph e.get_pair.1 e.get_pair.2).edges ↔ _
        rw [Graph.mem_add_edge]
        constructor
        · intro _
          exact hkind
        · intro _
          exact Or.inl rfl
      | Removed =>
        simp only [hkind]
        unfold Edge.edge_type at hkind
        show e.get_pair ∈ (Graph.remove_edge s.raw_graph e.get_pair.1 e.get_pair.2).edges ↔ _
        rw [Graph.mem_remove_edge]
        constructor
        · intro hc
          exact absurd rfl hc.1
        · intro hc
          rw [hkind] at hc
          cases hc
    · rw [if_neg (by simp [hk])]
      cases hkind : e.edge_type with
      | Added =>
        simp only [hkind]
        show k ∈ (Graph.add_edge s.raw_graph e.get_pair.1 e.get_pair.2).edges ↔ _
        rw [Graph.mem_add_edge]
        constructor
        · rintro (hc | hc)
          · exact absurd hc.symm (by simpa using hk)
          · exact hc
        · exact Or.inr
      | Removed =>
        simp only [hkind]
        show k ∈ (Graph.remove_edge s.raw_graph e.get_pair.1 e.get_pair.2).edges ↔ _
        rw [Graph.mem_remove_edge]
        constructor
        · intro hc
          exact hc.2
        · intro hc
          exact ⟨by simpa using fun hh => hk hh.symm, hc⟩
  · rw [if_pos hb, if_neg (by simp [hb])]

/-- A batch endpoint that cannot trigger a component restore: local, tracked, or
absent from `PeerComponent`. -/
abbrev EndCond (s : RoutingTableActor) (p : PeerId) : Prop :=
  p = s.my_peer_id ∨ (alLookup p s.peer_last_time_reachable).isSome = true
  ∨ alLookup p s.store.peerComponent = none

theorem fetch_pc_none (now : Nat) (s : RoutingTableActor) (q p : PeerId)
    (h : alLookup p s.store.peerComponent = none) :
    alLookup p (fetch_edges_for_peer_from_disk now s q).store.peerComponent = none := by
  unfold fetch_edges_for_peer_from_disk
  by_cases hg : q = s.my_peer_id ∨ (alLookup q s.peer_last_time_reachable).isSome
  · rw [if_pos hg]
    exact h
  · rw [if_neg hg]
    cases hc : component_nonce_from_peer s q with
    | none => exact h
    | some cn =>
      dsimp only
      unfold get_and_remove_component_edges
      dsimp only
      cases hce : alLookup cn s.store.componentEdges with
      | none =>
        dsimp only
        simp only [List.nil_append]
        exact h
      | some edges =>
        dsimp only
        have hod : onlyDeletes (restore_component_edges now cn
            (s, [] ++ [StoreOp.deleteComponentEdges cn]) edges).2 := by
          intro op hop
          rcases restore_loop_ops now cn edges _ op hop with hm | hm
          · simp only [List.nil_append] at hm
            exact Or.inr ⟨cn, List.mem_singleton.mp hm⟩
          · exact Or.inl hm
        apply commit_deletes_pc_preserve_none _ _ _ hod
        rw [(restore_loop_frame now cn edges _).1]
        exact h

theorem end_cond_fetch (now : Nat) (s : RoutingTableActor) (q p : PeerId)
    (h : EndCond s p) : EndCond (fetch_edges_for_peer_from_disk now s q) p := by
  rcases h with h | h | h
  · refine Or.inl ?_
    show p = (fetch_edges_for_peer_from_disk now s q).raw_graph.my_peer_id
    rw [(fetch_frame now s q).2.2.2.1]
    exact h
  · refine Or.inr (Or.inl ?_)
    rcases Option.isSome_iff_exists.mp h with ⟨v, hv⟩
    rw [fetch_tracker_some now s q p v hv]
    rfl
  · exact Or.inr (Or.inr (fetch_pc_none now s q p h))

theorem end_cond_av (s : RoutingTableActor) (e : Edge) (p : PeerId)
    (h : EndCond s p) : EndCond (add_verified_edge s e).1 p := by
  have hf := add_verified_edge_frame s e
  rcases h with h | h | h
  · refine Or.inl ?_
    show p = (add_verified_edge s e).1.raw_graph.my_peer_id
    rw [hf.2.2.2.2]
    exact h
  · refine Or.inr (Or.inl ?_)
    rw [hf.2.2.1]
    exact h
  · refine Or.inr (Or.inr ?_)
    rw [hf.1]
    exact h

theorem fetch_no_restore_frame (now : Nat) (s : RoutingTableActor) (p : PeerId)
    (h : EndCond s p) :
    (fetch_edges_for_peer_from_disk now s p).store = s.store
    ∧ (fetch_edges_for_peer_from_disk now s p).edges_info = s.edges_info
    ∧ (fetch_edges_for_peer_from_disk now s p).raw_graph = s.raw_graph
    ∧ (fetch_edges_for_peer_from_disk now s p).needs_routing_table_recalculation
        = s.needs_routing_table_recalculation
    ∧ (fetch_edges_for_peer_from_disk now s p).next_available_component_nonce
        = s.next_available_component_nonce
    ∧ (fetch_edges_for_peer_from_disk now s p).peer_forwarding = s.peer_forwarding := by
  rw [fetch_no_restore now s p h]
  by_cases hg : p = s.my_peer_id ∨ (alLookup p s.peer_last_time_reachable).isSome = true
  · rw [if_pos hg]
    exact ⟨rfl, rfl, rfl, rfl, rfl, rfl⟩
  · rw [if_neg hg]
    exact ⟨rfl, rfl, rfl, rfl, rfl, rfl⟩

theorem ien_congr (s1 s2 : RoutingTableActor) (k : PeerId × PeerId) (n : Nat)
    (h : s1.edges_info = s2.edges_info) :
    is_edge_newer s1 k n = is_edge_newer s2 k n := by
  unfold is_edge_newer
  rw [h]

theorem av_bool (s : RoutingTableActor) (e : Edge) :
    (add_verified_edge s e).2 = is_edge_newer s e.get_pair e.nonce := by
  unfold add_verified_edge
  by_cases hb : is_edge_newer s e.get_pair e.nonce = true
  · rw [if_neg (by simp [hb]), hb]
  · rw [if_pos hb]
    simp only [Bool.not_eq_true] at hb
    rw [hb]

theorem any_congr {α : Type} (l : List α) (p q : α → Bool)
    (h : ∀ a ∈ l, p a = q a) : l.any p = l.any q := by
  induction l with
  | nil => rfl
  | cons a rest ih =>
    rw [List.any_cons, List.any_cons, h a (List.mem_cons_self _ _),
      ih (fun b hb => h b (List.mem_cons_of_mem _ hb))]

theorem fetch2_tracker (now : Nat) (s : RoutingTableActor) (p0 p1 x : PeerId)
    (h0 : EndCond s p0) (h1 : EndCond s p1) :
    alLookup x (fetch_edges_for_peer_from_disk now
        (fetch_edges_for_peer_from_disk now s p0) p1).peer_last_time_reachable =
      if (x = p0 ∨ x = p1) ∧ ¬ x = s.my_peer_id
          ∧ alLookup x s.peer_last_time_reachable = none
      then some now else alLookup x s.peer_last_time_reachable := by
  have h1' := end_cond_fetch now s p0 p1 h1
  have hf0 := fetch_no_restore_frame now s p0 h0
  have hmy1 : (fetch_edges_for_peer_from_disk now s p0).my_peer_id = s.my_peer_id := by
    show (fetch_edges_for_peer_from_disk now s p0).raw_graph.my_peer_id
      = s.raw_graph.my_peer_id
    rw [hf0.2.2.1]
  rw [fetch_no_restore_tracker now (fetch_edges_for_peer_from_disk now s p0) p1 x h1']
  rw [fetch_no_restore_tracker now s p0 p1 h0]
  rw [fetch_no_restore_tracker now s p0 x h0]
  rw [hmy1]
  by_cases hM1 : p1 = s.my_peer_id
  · rw [if_neg (fun hc => hc.2.1 hM1)]
    by_cases hC0 : x = p0 ∧ ¬ p0 = s.my_peer_id ∧ alLookup p0 s.peer_last_time_reachable = none
    · rw [if_pos hC0, if_pos ⟨Or.inl hC0.1, by rw [hC0.1]; exact hC0.2.1, by rw [hC0.1]; exact hC0.2.2⟩]
    · rw [if_neg hC0]
      by_cases hT : (x = p0 ∨ x = p1) ∧ ¬ x = s.my_peer_id
          ∧ alLookup x s.peer_last_time_reachable = none
      · rcases hT.1 with hx | hx
        · exact absurd ⟨hx, by rw [← hx]; exact hT.2.1, by rw [← hx]; exact hT.2.2⟩ hC0
        · rw [hx] at hT
          exact absurd hM1 hT.2.1
      · rw [if_neg hT]
  · by_cases hN1 : alLookup p1 s.peer_last_time_reachable = none
    · by_cases hC0p1 : p1 = p0 ∧ ¬ p0 = s.my_peer_id
          ∧ alLookup p0 s.peer_last_time_reachable = none
      · -- p1 was inserted by the first fetch, so the second fetch skips it
        rw [if_pos hC0p1]
        rw [if_neg (fun hc => by cases hc.2.2)]
        by_cases hC0 : x = p0 ∧ ¬ p0 = s.my_peer_id
            ∧ alLookup p0 s.peer_last_time_reachable = none
        · rw [if_pos hC0,
            if_pos ⟨Or.inl hC0.1, by rw [hC0.1]; exact hC0.2.1, by rw [hC0.1]; exact hC0.2.2⟩]
        · rw [if_neg hC0]
          by_cases hT : (x = p0 ∨ x = p1) ∧ ¬ x = s.my_peer_id
              ∧ alLookup x s.peer_last_time_reachable = none
          · rcases hT.1 with hx | hx
            · exact absurd ⟨hx, by rw [← hx]; exact hT.2.1, by rw [← hx]; exact hT.2.2⟩ hC0
            · subst hx
              exact absurd ⟨hC0p1.1, hC0p1.2⟩ hC0
          · rw [if_neg hT]
      · rw [if_neg hC0p1]
        by_cases hx1 : x = p1
        · subst hx1
          rw [if_pos ⟨rfl, hM1, hN1⟩, if_pos ⟨Or.inr rfl, hM1, hN1⟩]
        · rw [if_neg (fun hc => hx1 hc.1)]
          by_cases hC0 : x = p0 ∧ ¬ p0 = s.my_peer_id
              ∧ alLookup p0 s.peer_last_time_reachable = none
          · rw [if_pos hC0,
              if_pos ⟨Or.inl hC0.1, by rw [hC0.1]; exact hC0.2.1, by rw [hC0.1]; exact hC0.2.2⟩]
          · rw [if_neg hC0]
            by_cases hT : (x = p0 ∨ x = p1) ∧ ¬ x = s.my_peer_id
                ∧ alLookup x s.peer_last_time_reachable = none
            · rcases hT.1 with hx | hx
              · exact absurd ⟨hx, by rw [← hx]; exact hT.2.1, by rw [← hx]; exact hT.2.2⟩ hC0
              · exact absurd hx hx1
            · rw [if_neg hT]
    · have houter : ¬ (x = p1 ∧ ¬ p1 = s.my_peer_id ∧
          (if p1 = p0 ∧ ¬ p0 = s.my_peer_id ∧ alLookup p0 s.peer_last_time_reachable = none
            then some now else alLookup p1 s.peer_last_time_reachable) = none) := by
        intro hc
        by_cases hcc : p1 = p0 ∧ ¬ p0 = s.my_peer_id
            ∧ alLookup p0 s.peer_last_time_reachable = none
        · rw [if_pos hcc] at hc
          cases hc.2.2
        · rw [if_neg hcc] at hc
          exact hN1 hc.2.2
      rw [if_neg houter]
      by_cases hC0 : x = p0 ∧ ¬ p0 = s.my_peer_id
          ∧ alLookup p0 s.peer_last_time_reachable = none
      · rw [if_pos hC0,
          if_pos ⟨Or.inl hC0.1, by rw [hC0.1]; exact hC0.2.1, by rw [hC0.1]; exact hC0.2.2⟩]
      · rw [if_neg hC0]
        by_cases hT : (x = p0 ∨ x = p1) ∧ ¬ x = s.my_peer_id
            ∧ alLookup x s.peer_last_time_reachable = none
        · rcases hT.1 with hx | hx
          · exact absurd ⟨hx, by rw [← hx]; exact hT.2.1, by rw [← hx]; exact hT.2.2⟩ hC0
          · subst hx
            exact absurd hT.2.2 hN1
        · rw [if_neg hT]

/-- Closed form of one batch under distinct keys and no-restore endpoints: the result
depends on the input list only through membership-style data, which is what makes
reordering sound in this regime. -/
theorem batch_closed_form (now : Nat) (E : List Edge) (s : RoutingTableActor)
    (hkeys : (E.map Edge.get_pair).Nodup)
    (hend : ∀ p ∈ endpointsOf E, EndCond s p) :
    (add_verified_edges_to_routing_table now s E).1.store = s.store
    ∧ (add_verified_edges_to_routing_table now s E).1.next_available_component_nonce
        = s.next_available_component_nonce
    ∧ (add_verified_edges_to_routing_table now s E).1.peer_forwarding = s.peer_forwarding
    ∧ (add_verified_edges_to_routing_table now s E).1.raw_graph.my_peer_id
        = s.raw_graph.my_peer_id
    ∧ (add_verified_edges_to_routing_table now s E).2
        = E.filter (fun e => is_edge_newer s e.get_pair e.nonce)
    ∧ (∀ k, alLookup k (add_verified_edges_to_routing_table now s E).1.edges_info =
        (match findAccepted s E k with
          | some e => some e
          | none => alLookup k s.edges_info))
    ∧ (∀ p, alLookup p
          (add_verified_edges_to_routing_table now s E).1.peer_last_time_reachable =
        (if p ∈ endpointsOf E ∧ ¬ p = s.my_peer_id
            ∧ alLookup p s.peer_last_time_reachable = none
          then some now else alLookup p s.peer_last_time_reachable))
    ∧ (∀ k, (k ∈ (add_verified_edges_to_routing_table now s E).1.raw_graph.edges ↔
        (match findAccepted s E k with
          | some e => e.kind = EdgeType.Added
          | none => k ∈ s.raw_graph.edges)))
    ∧ (add_verified_edges_to_routing_table now s E).1.needs_routing_table_recalculation =
        (s.needs_routing_table_recalculation
          || E.any (fun e => is_edge_newer s e.get_pair e.nonce)) := by
  induction E generalizing s with
  | nil =>
    refine ⟨rfl, rfl, rfl, rfl, rfl, fun k => rfl, fun p => ?_, fun k => Iff.rfl, ?_⟩
    · rw [if_neg (fun hc => List.not_mem_nil p hc.1)]
      rfl
    · rw [List.any_nil, Bool.or_false]
      rfl
  | cons e rest ih =>
    simp only [List.map_cons, List.nodup_cons] at hkeys
    obtain ⟨hke, hkr⟩ := hkeys
    have hm0 := hend e.peer0 ((mem_endpointsOf_cons _ e rest).mpr (Or.inl rfl))
    have hm1 := hend e.peer1 ((mem_endpointsOf_cons _ e rest).mpr (Or.inr (Or.inl rfl)))
    have hm1' := end_cond_fetch now s e.peer0 e.peer1 hm1
    have hf0 := fetch_no_restore_frame now s e.peer0 hm0
    have hf1 := fetch_no_restore_frame now
      (fetch_edges_for_peer_from_disk now s e.peer0) e.peer1 hm1'
    have hfa := add_verified_edge_frame (fetch_edges_for_peer_from_disk now
      (fetch_edges_for_peer_from_disk now s e.peer0) e.peer1) e
    have hei2 : (fetch_edges_for_peer_from_disk now
        (fetch_edges_for_peer_from_disk now s e.peer0) e.peer1).edges_info
        = s.edges_info := by
      rw [hf1.2.1, hf0.2.1]
    have hg2 : (fetch_edges_for_peer_from_disk now
        (fetch_edges_for_peer_from_disk now s e.peer0) e.peer1).raw_graph
        = s.raw_graph := by
      rw [hf1.2.2.1, hf0.2.2.1]
    have hfl2 : (fetch_edges_for_peer_from_disk now
        (fetch_edges_for_peer_from_disk now s e.peer0) e.peer1).needs_routing_table_recalculation
        = s.needs_routing_table_recalculation := by
      rw [hf1.2.2.2.1, hf0.2.2.2.1]
    have hien : is_edge_newer (fetch_edges_for_peer_from_disk now
        (fetch_edges_for_peer_from_disk now s e.peer0) e.peer1) e.get_pair e.nonce
        = is_edge_newer s e.get_pair e.nonce :=
      ien_congr _ _ _ _ hei2
    -- the state after processing the head edge
    have R_store : (add_verified_edge (fetch_edges_for_peer_from_disk now
        (fetch_edges_for_peer_from_disk now s e.peer0) e.peer1) e).1.store = s.store := by
      rw [hfa.1, hf1.1, hf0.1]
    have R_next : (add_verified_edge (fetch_edges_for_peer_from_disk now
        (fetch_edges_for_peer_from_disk now s e.peer0) e.peer1) e).1.next_available_component_nonce = s.next_available_component_nonce := by
      rw [hfa.2.1, hf1.2.2.2.2.1, hf0.2.2.2.2.1]
    have R_pf : (add_verified_edge (fetch_edges_for_peer_from_disk now
        (fetch_edges_for_peer_from_disk now s e.peer0) e.peer1) e).1.peer_forwarding
        = s.peer_forwarding := by
      rw [hfa.2.2.2.1, hf1.2.2.2.2.2, hf0.2.2.2.2.2]
    have R_my : (add_verified_edge (fetch_edges_for_peer_from_disk now
        (fetch_edges_for_peer_from_disk now s e.peer0) e.peer1) e).1.raw_graph.my_peer_id
        = s.raw_graph.my_peer_id := by
      rw [hfa.2.2.2.2]
      show (fetch_edges_for_peer_from_disk now
        (fetch_edges_for_peer_from_disk now s e.peer0) e.peer1).raw_graph.my_peer_id = _
      rw [hg2]
    have R_ei : ∀ k, alLookup k (add_verified_edge (fetch_edges_for_peer_from_disk now
        (fetch_edges_for_peer_from_disk now s e.peer0) e.peer1) e).1.edges_info =
        if k = e.get_pair then
          (if is_edge_newer s e.get_pair e.nonce = true then some e
            else alLookup k s.edges_info)
        else alLookup k s.edges_info := by
      intro k
      rw [add_verified_edge_lookup]
      have hiff : current_nonce (fetch_edges_for_peer_from_disk now
          (fetch_edges_for_peer_from_disk now s e.peer0) e.peer1) e.get_pair < e.nonce
          ↔ is_edge_newer s e.get_pair e.nonce = true := by
        rw [← hien]
        unfold current_nonce is_edge_newer
        exact (decide_eq_true_iff).symm
      by_cases hk : k = e.get_pair
      · rw [if_pos hk, if_pos hk]
        by_cases hacc : is_edge_newer s e.get_pair e.nonce = true
        · rw [if_pos (hiff.mpr hacc), if_pos hacc]
        · rw [if_neg (fun hc => hacc (hiff.mp hc)), if_neg hacc]
          show alLookup k (fetch_edges_for_peer_from_disk now
            (fetch_edges_for_peer_from_disk now s e.peer0) e.peer1).edges_info = _
          rw [hei2]
      · rw [if_neg hk, if_neg hk]
        show alLookup k (fetch_edges_for_peer_from_disk now
          (fetch_edges_for_peer_from_disk now s e.peer0) e.peer1).edges_info = _
        rw [hei2]
    have R_graph : ∀ k, (k ∈ (add_verified_edge (fetch_edges_for_peer_from_disk now
        (fetch_edges_for_peer_from_disk now s e.peer0) e.peer1) e).1.raw_graph.edges ↔
        (if (decide (e.get_pair = k) && is_edge_newer s e.get_pair e.nonce) = true
          then e.kind = EdgeType.Added
          else k ∈ s.raw_graph.edges)) := by
      intro k
      rw [av_graph_mem]
      rw [show is_edge_newer (fetch_edges_for_peer_from_disk now
        (fetch_edges_for_peer_from_disk now s e.peer0) e.peer1) e.get_pair e.nonce
        = is_edge_newer s e.get_pair e.nonce from hien]
      by_cases hc : (decide (e.get_pair = k) && is_edge_newer s e.get_pair e.nonce) = true
      · rw [if_pos hc, if_pos hc]
      · rw [if_neg hc, if_neg hc, hg2]
    have R_flag : (add_verified_edge (fetch_edges_for_peer_from_disk now
        (fetch_edges_for_peer_from_disk now s e.peer0) e.peer1) e).1.needs_routing_table_recalculation
        = (s.needs_routing_table_recalculation || is_edge_newer s e.get_pair e.nonce) := by
      rw [av_flag, hfl2, hien]
    have R_tr : ∀ x, alLookup x (add_verified_edge (fetch_edges_for_peer_from_disk now
        (fetch_edges_for_peer_from_disk now s e.peer0) e.peer1) e).1.peer_last_time_reachable =
        if (x = e.peer0 ∨ x = e.peer1) ∧ ¬ x = s.my_peer_id
            ∧ alLookup x s.peer_last_time_reachable = none
        then some now else alLookup x s.peer_last_time_reachable := by
      intro x
      rw [hfa.2.2.1]
      exact fetch2_tracker now s e.peer0 e.peer1 x hm0 hm1
    have hend3 : ∀ p ∈ endpointsOf rest, EndCond (add_verified_edge
        (fetch_edges_for_peer_from_disk now
          (fetch_edges_for_peer_from_disk now s e.peer0) e.peer1) e).1 p := by
      intro p hp
      exact end_cond_av _ e p (end_cond_fetch now _ e.peer1 p (end_cond_fetch now s e.peer0 p
        (hend p ((mem_endpointsOf_cons _ e rest).mpr (Or.inr (Or.inr hp))))))
    have IH := ih ((add_verified_edge (fetch_edges_for_peer_from_disk now
      (fetch_edges_for_peer_from_disk now s e.peer0) e.peer1) e).1) hkr hend3
    have hien3 : ∀ e2 ∈ rest, is_edge_newer (add_verified_edge
        (fetch_edges_for_peer_from_disk now
          (fetch_edges_for_peer_from_disk now s e.peer0) e.peer1) e).1
          e2.get_pair e2.nonce
        = is_edge_newer s e2.get_pair e2.nonce := by
      intro e2 he2
      have hkne : ¬ e2.get_pair = e.get_pair := by
        intro hh
        rw [← hh] at hke
        exact hke (List.mem_map.mpr ⟨e2, he2, rfl⟩)
      unfold is_edge_newer
      rw [R_ei e2.get_pair, if_neg hkne]
    -- the batch on (e :: rest) definitionally runs the head step then the rest
    unfold add_verified_edges_to_routing_table
    dsimp only
    simp only [Edge.get_pair]
    refine ⟨?_, ?_, ?_, ?_, ?_, ?_, ?_, ?_, ?_⟩
    · exact IH.1.trans R_store
    · exact IH.2.1.trans R_next
    · exact IH.2.2.1.trans R_pf
    · exact IH.2.2.2.1.trans R_my
    · rw [av_bool]
      show (if is_edge_newer (fetch_edges_for_peer_from_disk now
          (fetch_edges_for_peer_from_disk now s e.peer0) e.peer1) (e.peer0, e.peer1)
            e.nonce = true
        then e :: (add_verified_edges_to_routing_table now _ rest).2
        else (add_verified_edges_to_routing_table now _ rest).2) = _
      rw [show is_edge_newer (fetch_edges_for_peer_from_disk now
          (fetch_edges_for_peer_from_disk now s e.peer0) e.peer1) (e.peer0, e.peer1) e.nonce
          = is_edge_newer s (e.peer0, e.peer1) e.nonce from ien_congr _ _ _ _ hei2]
      rw [IH.2.2.2.2.1]
      rw [List.filter_congr (fun e2 he2 => hien3 e2 he2)]
      rw [List.filter_cons]
      rfl
    · intro k
      rw [IH.2.2.2.2.2.1 k]
      unfold findAccepted
      rw [find?_congr rest _ _ (fun e2 he2 => by rw [hien3 e2 he2])]
      rw [List.find?_cons]
      by_cases hk : e.get_pair = k
      · have hnone : rest.find? (fun e2 => decide (e2.get_pair = k)
            && is_edge_newer s e2.get_pair e2.nonce) = none := by
          rw [List.find?_eq_none]
          intro e2 he2
          intro hc
          simp only [Bool.and_eq_true, decide_eq_true_eq] at hc
          rw [← hk] at hc
          rw [← hc.1] at hke
          exact hke (List.mem_map.mpr ⟨e2, he2, rfl⟩)
        rw [hnone]
        by_cases hacc : is_edge_newer s e.get_pair e.nonce = true
        · rw [show (decide (e.get_pair = k) && is_edge_newer s e.get_pair e.nonce) = true by
            rw [hk] at hacc ⊢
            simp [hacc]]
          rw [R_ei k, if_pos hk.symm, if_pos hacc]
        · rw [show (decide (e.get_pair = k) && is_edge_newer s e.get_pair e.nonce) = false by
            simp only [Bool.not_eq_true] at hacc
            rw [hk] at hacc ⊢
            simp [hacc]]
          rw [R_ei k, if_pos hk.symm, if_neg hacc]
      · rw [show (decide (e.get_pair = k) && is_edge_newer s e.get_pair e.nonce) = false by
          simp [hk]]
        cases hfind : rest.find? (fun e2 => decide (e2.get_pair = k)
            && is_edge_newer s e2.get_pair e2.nonce) with
        | none =>
          rw [R_ei k, if_neg (fun hh => hk hh.symm)]
        | some e2 => rfl
    · intro p
      rw [IH.2.2.2.2.2.2.1 p]
      have hmy3 : (add_verified_edge (fetch_edges_for_peer_from_disk now
          (fetch_edges_for_peer_from_disk now s e.peer0) e.peer1) e).1.my_peer_id
          = s.my_peer_id := R_my
      rw [hmy3]
      by_cases hE0 : p ∈ endpointsOf rest
      · by_cases hM : p = s.my_peer_id
        · rw [if_neg (fun hc => hc.2.1 hM), R_tr p, if_neg (fun hc => hc.2.1 hM),
            if_neg (fun hc => hc.2.1 hM)]
        · by_cases hN : alLookup p s.peer_last_time_reachable = none
          · by_cases hA : p = e.peer0 ∨ p = e.peer1
            · rw [if_neg (fun hc => by
                have := hc.2.2
                rw [R_tr p, if_pos ⟨hA, hM, hN⟩] at this
                cases this)]
              rw [R_tr p, if_pos ⟨hA, hM, hN⟩,
                if_pos ⟨(mem_endpointsOf_cons _ e rest).mpr
                  (by rcases hA with h | h
                      · exact Or.inl h
                      · exact Or.inr (Or.inl h)), hM, hN⟩]
            · rw [if_pos ⟨hE0, hM, by rw [R_tr p, if_neg (fun hc => hA hc.1)]; exact hN⟩,
                if_pos ⟨(mem_endpointsOf_cons _ e rest).mpr (Or.inr (Or.inr hE0)), hM, hN⟩]
          · rw [if_neg (fun hc => by
              have := hc.2.2
              rw [R_tr p, if_neg (fun hc2 => hN hc2.2.2)] at this
              exact hN this)]
            rw [R_tr p, if_neg (fun hc2 => hN hc2.2.2),
              if_neg (fun hc2 => hN hc2.2.2)]
      · rw [if_neg (fun hc => hE0 hc.1), R_tr p]
        by_cases hA : p = e.peer0 ∨ p = e.peer1
        · by_cases hM : p = s.my_peer_id
          · rw [if_neg (fun hc => hc.2.1 hM), if_neg (fun hc => hc.2.1 hM)]
          · by_cases hN : alLookup p s.peer_last_time_reachable = none
            · rw [if_pos ⟨hA, hM, hN⟩,
                if_pos ⟨(mem_endpointsOf_cons _ e rest).mpr
                  (by rcases hA with h | h
                      · exact Or.inl h
                      · exact Or.inr (Or.inl h)), hM, hN⟩]
            · rw [if_neg (fun hc => hN hc.2.2), if_neg (fun hc => hN hc.2.2)]
        · rw [if_neg (fun hc => hA hc.1)]
          rw [if_neg (fun hc => by
            rcases (mem_endpointsOf_cons _ e rest).mp hc.1 with h | h | h
            · exact hA (Or.inl h)
            · exact hA (Or.inr h)
            · exact hE0 h)]
    · intro k
      rw [IH.2.2.2.2.2.2.2.1 k]
      unfold findAccepted
      rw [find?_congr rest _ _ (fun e2 he2 => by rw [hien3 e2 he2])]
      rw [List.find?_cons]
      by_cases hk : e.get_pair = k
      · have hnone : rest.find? (fun e2 => decide (e2.get_pair = k)
            && is_edge_newer s e2.get_pair e2.nonce) = none := by
          rw [List.find?_eq_none]
          intro e2 he2
          intro hc
          simp only [Bool.and_eq_true, decide_eq_true_eq] at hc
          rw [← hk] at hc
          rw [← hc.1] at hke
          exact hke (List.mem_map.mpr ⟨e2, he2, rfl⟩)
        rw [hnone]
        by_cases hacc : is_edge_newer s e.get_pair e.nonce = true
        · rw [show (decide (e.get_pair = k) && is_edge_newer s e.get_pair e.nonce) = true by
            rw [hk] at hacc ⊢
            simp [hacc]]
          rw [R_graph k]
          rw [if_pos (by rw [hk] at hacc ⊢; simp [hacc])]
        · rw [show (decide (e.get_pair = k) && is_edge_newer s e.get_pair e.nonce) = false by
            simp only [Bool.not_eq_true] at hacc
            simp [hacc]]
          rw [R_graph k]
          rw [if_neg (by
            simp only [Bool.not_eq_true] at hacc
            simp [hacc])]
      · rw [show (decide (e.get_pair = k) && is_edge_newer s e.get_pair e.nonce) = false by
          simp [hk]]
        cases hfind : rest.find? (fun e2 => decide (e2.get_pair = k)
            && is_edge_newer s e2.get_pair e2.nonce) with
        | none =>
          rw [R_graph k, if_neg (by simp [hk])]
        | some e2 => exact Iff.rfl
    · rw [IH.2.2.2.2.2.2.2.2]
      rw [any_congr rest _ _ (fun e2 he2 => hien3 e2 he2)]
      rw [R_flag, List.any_cons, Bool.or_assoc]
      rfl

/-- C9 (counterexample): processing order inside one batch is NOT always
semantically irrelevant.  Two distinct edges sharing the same key `(1, 2)` and
the same nonce `5` — one `Added`, one `Removed` — are a permutation of each
other in either order, yet the first-processed one wins (the second is rejected
because `is_edge_newer` requires a strictly greater nonce), so the two orders
leave a different Edge Store entry and a different Overlay Graph. -/
theorem C9_counterexample :
    (([⟨1, 2, 5, EdgeType.Added, 0, 0⟩, ⟨1, 2, 5, EdgeType.Removed, 0, 0⟩] : List Edge).Perm
      [⟨1, 2, 5, EdgeType.Removed, 0, 0⟩, ⟨1, 2, 5, EdgeType.Added, 0, 0⟩])
    ∧ ¬ ((add_verified_edges_to_routing_table 100 (RoutingTableActor.new 0 Store.empty)
          [⟨1, 2, 5, EdgeType.Added, 0, 0⟩, ⟨1, 2, 5, EdgeType.Removed, 0, 0⟩]).1.raw_graph.edges
        = (add_verified_edges_to_routing_table 100 (RoutingTableActor.new 0 Store.empty)
          [⟨1, 2, 5, EdgeType.Removed, 0, 0⟩, ⟨1, 2, 5, EdgeType.Added, 0, 0⟩]).1.raw_graph.edges)
    ∧ ¬ (alLookup (1, 2) (add_verified_edges_to_routing_table 100
            (RoutingTableActor.new 0 Store.empty)
          [⟨1, 2, 5, EdgeType.Added, 0, 0⟩, ⟨1, 2, 5, EdgeType.Removed, 0, 0⟩]).1.edges_info
        = alLookup (1, 2) (add_verified_edges_to_routing_table 100
            (RoutingTableActor.new 0 Store.empty)
          [⟨1, 2, 5, EdgeType.Removed, 0, 0⟩, ⟨1, 2, 5, EdgeType.Added, 0, 0⟩]).1.edges_info) := by
  decide

/-- C9 (amended): within one `AddVerifiedEdges` batch whose edges carry pairwise
distinct keys, and whose endpoints are all settled for the fetch path (local,
already tracked, or with no `PeerComponent` entry — so no restore is triggered),
the processing order is semantically irrelevant: for any permutation of the
batch the resulting Edge Store, Overlay Graph, Reachability Tracker, persistent
store, forwarding table, next component nonce and recalculation flag coincide,
and the accepted-edge responses are permutations of each other. -/
theorem C9_perm_amended (now : Nat) (s : RoutingTableActor) (E E2 : List Edge)
    (hperm : E.Perm E2)
    (hkeys : (E.map Edge.get_pair).Nodup)
    (hend : ∀ p ∈ endpointsOf E, EndCond s p) :
    (∀ k, alLookup k (add_verified_edges_to_routing_table now s E).1.edges_info
        = alLookup k (add_verified_edges_to_routing_table now s E2).1.edges_info)
    ∧ (∀ k, (k ∈ (add_verified_edges_to_routing_table now s E).1.raw_graph.edges
        ↔ k ∈ (add_verified_edges_to_routing_table now s E2).1.raw_graph.edges))
    ∧ (∀ p, alLookup p (add_verified_edges_to_routing_table now s E).1.peer_last_time_reachable
        = alLookup p (add_verified_edges_to_routing_table now s E2).1.peer_last_time_reachable)
    ∧ (add_verified_edges_to_routing_table now s E).1.store
        = (add_verified_edges_to_routing_table now s E2).1.store
    ∧ (add_verified_edges_to_routing_table now s E).1.peer_forwarding
        = (add_verified_edges_to_routing_table now s E2).1.peer_forwarding
    ∧ (add_verified_edges_to_routing_table now s E).1.next_available_component_nonce
        = (add_verified_edges_to_routing_table now s E2).1.next_available_component_nonce
    ∧ (add_verified_edges_to_routing_table now s E).1.needs_routing_table_recalculation
        = (add_verified_edges_to_routing_table now s E2).1.needs_routing_table_recalculation
    ∧ ((add_verified_edges_to_routing_table now s E).2).Perm
        (add_verified_edges_to_routing_table now s E2).2 := by
  have hkeys2 : (E2.map Edge.get_pair).Nodup :=
    ((hperm.map Edge.get_pair).nodup_iff).mp hkeys
  have hmem : ∀ p, p ∈ endpointsOf E ↔ p ∈ endpointsOf E2 := by
    intro p
    rw [mem_endpointsOf_iff, mem_endpointsOf_iff]
    constructor
    · rintro ⟨e, he, hc⟩
      exact ⟨e, hperm.mem_iff.mp he, hc⟩
    · rintro ⟨e, he, hc⟩
      exact ⟨e, hperm.mem_iff.mpr he, hc⟩
  have hend2 : ∀ p ∈ endpointsOf E2, EndCond s p :=
    fun p hp => hend p ((hmem p).mpr hp)
  have H := batch_closed_form now E s hkeys hend
  have H2 := batch_closed_form now E2 s hkeys2 hend2
  have hfind : ∀ k, findAccepted s E k = findAccepted s E2 k := fun k =>
    find?_perm_of_unique E E2 hperm _ (findAccepted_unique s E hkeys k)
  refine ⟨?_, ?_, ?_, ?_, ?_, ?_, ?_, ?_⟩
  · intro k
    rw [H.2.2.2.2.2.1 k, H2.2.2.2.2.2.1 k, hfind k]
  · intro k
    rw [H.2.2.2.2.2.2.2.1 k, H2.2.2.2.2.2.2.2.1 k, hfind k]
  · intro p
    rw [H.2.2.2.2.2.2.1 p, H2.2.2.2.2.2.2.1 p]
    by_cases hc : p ∈ endpointsOf E ∧ ¬ p = s.my_peer_id
        ∧ alLookup p s.peer_last_time_reachable = none
    · rw [if_pos hc, if_pos ⟨(hmem p).mp hc.1, hc.2⟩]
    · rw [if_neg hc, if_neg (fun hc2 => hc ⟨(hmem p).mpr hc2.1, hc2.2⟩)]
  · exact H.1.trans H2.1.symm
  · exact H.2.2.1.trans H2.2.2.1.symm
  · exact H.2.1.trans H2.2.1.symm
  · rw [H.2.2.2.2.2.2.2.2, H2.2.2.2.2.2.2.2.2, any_perm E E2 hperm]
  · rw [H.2.2.2.2.1, H2.2.2.2.2.1]
    exact hperm.filter _

/-- Concrete instance of the amended C9 theorem: a two-edge batch with distinct
keys `(1, 2)` and `(3, 4)` processed in both orders from a fresh actor. -/
theorem C9_perm_amended_witness :
    (∀ k, alLookup k (add_verified_edges_to_routing_table 7
          (RoutingTableActor.new 0 Store.empty)
          [⟨1, 2, 5, EdgeType.Added, 0, 0⟩, ⟨3, 4, 9, EdgeType.Added, 0, 0⟩]).1.edges_info
        = alLookup k (add_verified_edges_to_routing_table 7
          (RoutingTableActor.new 0 Store.empty)
          [⟨3, 4, 9, EdgeType.Added, 0, 0⟩, ⟨1, 2, 5, EdgeType.Added, 0, 0⟩]).1.edges_info)
    ∧ (∀ k, (k ∈ (add_verified_edges_to_routing_table 7
          (RoutingTableActor.new 0 Store.empty)
          [⟨1, 2, 5, EdgeType.Added, 0, 0⟩, ⟨3, 4, 9, EdgeType.Added, 0, 0⟩]).1.raw_graph.edges
        ↔ k ∈ (add_verified_edges_to_routing_table 7
          (RoutingTableActor.new 0 Store.empty)
          [⟨3, 4, 9, EdgeType.Added, 0, 0⟩, ⟨1, 2, 5, EdgeType.Added, 0, 0⟩]).1.raw_graph.edges))
    ∧ (∀ p, alLookup p (add_verified_edges_to_routing_table 7
          (RoutingTableActor.new 0 Store.empty)
          [⟨1, 2, 5, EdgeType.Added, 0, 0⟩,
            ⟨3, 4, 9, EdgeType.Added, 0, 0⟩]).1.peer_last_time_reachable
        = alLookup p (add_verified_edges_to_routing_table 7
          (RoutingTableActor.new 0 Store.empty)
          [⟨3, 4, 9, EdgeType.Added, 0, 0⟩,
            ⟨1, 2, 5, EdgeType.Added, 0, 0⟩]).1.peer_last_time_reachable)
    ∧ (add_verified_edges_to_routing_table 7 (RoutingTableActor.new 0 Store.empty)
          [⟨1, 2, 5, EdgeType.Added, 0, 0⟩, ⟨3, 4, 9, EdgeType.Added, 0, 0⟩]).1.store
        = (add_verified_edges_to_routing_table 7 (RoutingTableActor.new 0 Store.empty)
          [⟨3, 4, 9, EdgeType.Added, 0, 0⟩, ⟨1, 2, 5, EdgeType.Added, 0, 0⟩]).1.store
    ∧ (add_verified_edges_to_routing_table 7 (RoutingTableActor.new 0 Store.empty)
          [⟨1, 2, 5, EdgeType.Added, 0, 0⟩, ⟨3, 4, 9, EdgeType.Added, 0, 0⟩]).1.peer_forwarding
        = (add_verified_edges_to_routing_table 7 (RoutingTableActor.new 0 Store.empty)
          [⟨3, 4, 9, EdgeType.Added, 0, 0⟩, ⟨1, 2, 5, EdgeType.Added, 0, 0⟩]).1.peer_forwarding
    ∧ (add_verified_edges_to_routing_table 7 (RoutingTableActor.new 0 Store.empty)
          [⟨1, 2, 5, EdgeType.Added, 0, 0⟩,
            ⟨3, 4, 9, EdgeType.Added, 0, 0⟩]).1.next_available_component_nonce
        = (add_verified_edges_to_routing_table 7 (RoutingTableActor.new 0 Store.empty)
          [⟨3, 4, 9, EdgeType.Added, 0, 0⟩,
            ⟨1, 2, 5, EdgeType.Added, 0, 0⟩]).1.next_available_component_nonce
    ∧ (add_verified_edges_to_routing_table 7 (RoutingTableActor.new 0 Store.empty)
          [⟨1, 2, 5, EdgeType.Added, 0, 0⟩,
            ⟨3, 4, 9, EdgeType.Added, 0, 0⟩]).1.needs_routing_table_recalculation
        = (add_verified_edges_to_routing_table 7 (RoutingTableActor.new 0 Store.empty)
          [⟨3, 4, 9, EdgeType.Added, 0, 0⟩,
            ⟨1, 2, 5, EdgeType.Added, 0, 0⟩]).1.needs_routing_table_recalculation
    ∧ ((add_verified_edges_to_routing_table 7 (RoutingTableActor.new 0 Store.empty)
          [⟨1, 2, 5, EdgeType.Added, 0, 0⟩, ⟨3, 4, 9, EdgeType.Added, 0, 0⟩]).2).Perm
        (add_verified_edges_to_routing_table 7 (RoutingTableActor.new 0 Store.empty)
          [⟨3, 4, 9, EdgeType.Added, 0, 0⟩, ⟨1, 2, 5, EdgeType.Added, 0, 0⟩]).2 :=
  C9_perm_amended 7 (RoutingTableActor.new 0 Store.empty)
    [⟨1, 2, 5, EdgeType.Added, 0, 0⟩, ⟨3, 4, 9, EdgeType.Added, 0, 0⟩]
    [⟨3, 4, 9, EdgeType.Added, 0, 0⟩, ⟨1, 2, 5, EdgeType.Added, 0, 0⟩]
    (by decide) (by decide) (by decide)

end NearRouting
